import Mathlib

set_option maxRecDepth 100000

/-!
Verification of the piggyback metadata-collection engine
(`src/backend/piggyback/piggyback.c` and the accompanying snapshot that
prints single-column statistics and functional dependencies).

The development shallowly embeds, faithfully to the C source:
* the open-addressing hash set used for distinct-value counting
  (`hashset_create`, `hashset_add_member`, `maybe_rehash`,
  `hashset_is_member`, `hashset_num_items`, the djb2 string `hash`);
* the open-addressing hash map used for FD-candidate tracking
  (`hashmapCreate`, `hashmapInsert`, `hashmapGet`, `hashmapCount`);
* the per-row statistics observer from `ExecProcNode`, the FD tracker
  `fillFDCandidateMaps` with its one-shot `prune`, the predicate-shortcut
  analyzer (`LookForFilterWithEquality`, `SetStatisticValuesForEqual`,
  `SetStatisticValuesForUnequal`) and the invalidation routines
  (`InvalidateStatisticsForTable`, `InvalidateStatisticsForTables`);
* the report serializers (`printSingleColumnStatistics`,
  `printFunctionalDependencies`).

C pointers matter in this code (several comparisons in the source compare
addresses, not pointees), so allocated `int` cells and `char*` strings are
modelled with explicit allocation identities.
-/

namespace Piggyback

/-! ## The stolen hashset (piggyback.c, "begin stolen hashset")

`static const unsigned int prime_1 = 73; prime_2 = 5009;`
`static const unsigned int nil = ULONG_MAX - 1; rem = ULONG_MAX - 2;`

On an LP64 platform `ULONG_MAX = 2^64 - 1`; the initializers are truncated
to `unsigned int` (32 bits), so the sentinel keys actually used everywhere
are `2^32 - 2` and `2^32 - 3` (when compared against a `size_t` slot value
they are zero-extended back, so the struct consistently uses these two
values). -/

def prime_1 : Nat := 73

def prime_2 : Nat := 5009

/-- The "empty slot" sentinel `nil` (`(unsigned int)(ULONG_MAX - 1)`). -/
def nilKey : Nat := 2 ^ 32 - 2

/-- The "removed slot" sentinel `rem` (`(unsigned int)(ULONG_MAX - 2)`). -/
def remKey : Nat := 2 ^ 32 - 3

/-- `struct hashset_st`.  `items` is the slot array (length `capacity`);
all arithmetic is `size_t`, modelled as `Nat` (the C truncation mod `2^64`
is immaterial: every value stored or probed is below `2^64`, and
`x &&& mask` only looks at the low `nbits ≤ 64` bits). -/
structure Hashset where
  nbits : Nat
  mask : Nat
  capacity : Nat
  items : List Nat
  nitems : Nat
  deriving Repr, DecidableEq

/-- `hashset_create()`: `nbits = 3`, `capacity = 1 << 3 = 8`,
`mask = capacity - 1`, all slots set to `nil`, `nitems = 0`.
(The out-of-memory paths return NULL; allocation is assumed to succeed.) -/
def hashset_create : Hashset :=
  { nbits := 3
    capacity := 2 ^ 3
    mask := 2 ^ 3 - 1
    items := List.replicate (2 ^ 3) nilKey
    nitems := 0 }

/-- `hashset_num_items`. -/
def hashset_num_items (set : Hashset) : Nat := set.nitems

/-- The probe loop of `hashset_add_member`:
`while (items[ii] != nil && items[ii] != rem) { if (items[ii] == value) return 0; ii = mask & (ii + prime_2); }`.
Returns `some (true, ii)` when the value is found at `ii`,
`some (false, ii)` when a free (nil or rem) slot `ii` is reached, and
`none` when `fuel` probes did not exit the loop (the C loop would keep
running; with a free slot present, `fuel = capacity` always suffices —
see `addLoop_total`). -/
def addLoop (items : List Nat) (mask value : Nat) : Nat → Nat → Option (Bool × Nat)
  | 0, _ => none
  | fuel + 1, ii =>
    let x := items.getD ii 0
    if x ≠ nilKey ∧ x ≠ remKey then
      if x = value then some (true, ii)
      else addLoop items mask value fuel (mask &&& (ii + prime_2))
    else some (false, ii)

/-- `hashset_add_member(set, item)`: rejects the two sentinels with `-1`,
returns `0` (set unchanged) if the value is already stored, otherwise
writes the value into the first free slot of its probe sequence and
increments `nitems`, returning `1`. -/
def hashset_add_member (set : Hashset) (value : Nat) : Int × Hashset :=
  if value = nilKey ∨ value = remKey then (-1, set)
  else
    match addLoop set.items set.mask value set.capacity (set.mask &&& (prime_1 * value)) with
    | some (true, _) => (0, set)
    | some (false, ii) =>
      (1, { set with nitems := set.nitems + 1, items := set.items.set ii value })
    | none => (-1, set)

/-- `(size_t)((double)capacity * 0.85)`: for every capacity `2^k` with
`k ≤ 32` the double product is exact enough that the truncation equals
`⌊85·capacity/100⌋` (the fractional part of `0.85·2^k` is `m/5 ≥ 0.2`,
far above the rounding error of the double constant `0.85`). -/
def rehashThreshold (capacity : Nat) : Nat := 85 * capacity / 100

/-- `maybe_rehash(set)`: once `nitems ≥ (size_t)(capacity * 0.85)`, double
the capacity (`nbits++`, fresh all-`nil` slot array, `nitems = 0`) and
re-add every old slot value with `hashset_add_member` (slots holding `nil`
are rejected by the sentinel check and thus skipped). -/
def maybe_rehash (set : Hashset) : Hashset :=
  if rehashThreshold set.capacity ≤ set.nitems then
    let fresh : Hashset :=
      { nbits := set.nbits + 1
        capacity := 2 ^ (set.nbits + 1)
        mask := 2 ^ (set.nbits + 1) - 1
        items := List.replicate (2 ^ (set.nbits + 1)) nilKey
        nitems := 0 }
    set.items.foldl (fun t x => (hashset_add_member t x).2) fresh
  else set

/-- Common body of `hashset_add_integer` / `hashset_add_numeric` /
`hashset_add_string`: `rv = hashset_add_member(set, item); maybe_rehash(set); return rv;`. -/
def hashset_add (set : Hashset) (value : Nat) : Int × Hashset :=
  let r := hashset_add_member set value
  (r.1, maybe_rehash r.2)

/-- djb2 over the bytes of a string:
`hash = 5381; while (c = *str++) hash = hash * 33 + c;` in `unsigned long`
(64-bit) arithmetic. -/
def hashBytes (bytes : List Nat) : Nat :=
  bytes.foldl (fun h c => (h * 33 + c) % 2 ^ 64) 5381

/-- `hash(str)` applied to a C string: djb2 over its bytes, modelled over
the character codes (identical to the byte sequence for the ASCII data
this engine produces: `sprintf("%d", …)` output, `numeric_out` output and
the column values exercised here). -/
def hashStr (s : String) : Nat :=
  hashBytes (s.data.map Char.toNat)

/-- `hashset_add_string(set, string)`. -/
def hashset_add_string (set : Hashset) (s : String) : Int × Hashset :=
  hashset_add set (hashStr s)

/-- `(size_t)value` for a C `int` (sign-extended to 64 bits). -/
def sizeT (v : Int) : Nat := (v % (2 ^ 64 : Int)).toNat

/-- `hashset_add_integer(set, (void*)value)` for an `int` value. -/
def hashset_add_integer (set : Hashset) (v : Int) : Int × Hashset :=
  hashset_add set (sizeT v)

/-- The probe loop of `hashset_is_member`:
`while (items[ii] != nil) { if (items[ii] == value) return 1; ii = mask & (ii + prime_2); }`;
walks past `rem` slots, stops at a true `nil`.  `none`-style fuel
exhaustion yields `false` (the C loop would keep running). -/
def findLoop (items : List Nat) (mask value : Nat) : Nat → Nat → Bool
  | 0, _ => false
  | fuel + 1, ii =>
    let x := items.getD ii 0
    if x ≠ nilKey then
      if x = value then true
      else findLoop items mask value fuel (mask &&& (ii + prime_2))
    else false

/-- `hashset_is_member(set, item)`. -/
def hashset_is_member (set : Hashset) (value : Nat) : Bool :=
  findLoop set.items set.mask value set.capacity (set.mask &&& (prime_1 * value))

/-- Folding the public insert over a list of keys, starting from a freshly
created set: the insert-only usage pattern of the distinct-value tracker. -/
def insertKeys (ks : List Nat) : Hashset :=
  ks.foldl (fun s k => (hashset_add s k).2) hashset_create

/-- The slots of a hash set that hold a key (are not `nil`). -/
def liveSlots (items : List Nat) : List Nat :=
  items.filter (fun x => x ≠ nilKey)

/-- The index visited after `t` collision steps starting from `ii`. -/
def probeIter (mask ii : Nat) : Nat → Nat
  | 0 => ii
  | t + 1 => mask &&& (probeIter mask ii t + prime_2)

/-- A key that is neither sentinel. -/
def isLiveKey (x : Nat) : Bool := decide (x ≠ nilKey) && decide (x ≠ remKey)

/-- Invariant of every hash set reachable by inserts from `hashset_create`:
consistent geometry, no tombstones, pairwise-distinct stored keys counted
by `nitems`, and every stored key findable by `hashset_is_member`. -/
def Inv (s : Hashset) : Prop :=
  s.capacity = 2 ^ s.nbits ∧
  s.mask = s.capacity - 1 ∧
  s.items.length = s.capacity ∧
  3 ≤ s.nbits ∧
  remKey ∉ s.items ∧
  (liveSlots s.items).Nodup ∧
  s.nitems = (liveSlots s.items).length ∧
  (∀ v ∈ s.items, v ≠ nilKey → hashset_is_member s v = true)

instance (s : Hashset) : Decidable (Inv s) := by
  unfold Inv
  infer_instance

/-- States reachable by the public insert operations: the invariant plus
"strictly below the rehash threshold" (re-established after every insert). -/
def PubInv (s : Hashset) : Prop :=
  Inv s ∧ s.nitems < rehashThreshold s.capacity

instance (s : Hashset) : Decidable (PubInv s) := by
  unfold PubInv
  infer_instance

/-! ## The stolen hashmap (FD-candidate tracking; "begin stolen hashmap")

`hEntry { void* data; int flags; long key; }` with `ACTIVE = 1`,
`struct s_hashmap { hEntry* table; long size, count; }`.  The stored
`data` is the dependent column's snapshot `char*`; the FD code compares it
by address, so it is modelled as a pointer identity. -/

/-- A `char*` value held in the per-row snapshot `piggyback->slotValues`:
either a fresh allocation (`calloc`/`sprintf`, `numeric_out`,
`TextDatumGetCString` — a new address every row) or one of the two `""`
string-literal objects in the observer (one occurrence in the NULL branch,
one in the unrecognized-type branch; each literal occurrence is a single
static object, so it yields the same address every time it is evaluated). -/
inductive CPtr where
  | fresh (id : Nat)
  | litNull
  | litOther
  deriving Repr, DecidableEq, Inhabited

structure HEntry where
  data : Option CPtr
  flags : Nat
  key : Nat
  deriving Repr, DecidableEq, Inhabited

structure Hashmap where
  table : List HEntry
  size : Nat
  count : Nat
  deriving Repr, DecidableEq, Inhabited

def TABLE_STARTSIZE : Nat := 1000

def ACTIVE : Nat := 1

def hmDefaultEntry : HEntry := ⟨none, 0, 0⟩

/-- `hashmapCreate(startsize)`: zeroed (`calloc`) table. -/
def hashmapCreate (startsize : Nat) : Hashmap :=
  { table := List.replicate startsize hmDefaultEntry
    size := startsize
    count := 0 }

/-- `hashmapCount`. -/
def hashmapCount (hm : Hashmap) : Nat := hm.count

/-- The bounded probe (`for (i = 0; i < hash->size; i++)`) of
`hashmapInsert`: update in place when an ACTIVE entry carries the key,
claim the first non-ACTIVE entry otherwise; `none` when all `size`
probes fail (the caller then rehashes and retries). -/
def hmInsertLoop (data : CPtr) (key step : Nat) :
    Nat → Nat → Hashmap → Option Hashmap
  | 0, _, _ => none
  | iters + 1, index, hm =>
    let e := hm.table.getD index hmDefaultEntry
    if e.flags &&& ACTIVE ≠ 0 then
      if e.key = key then
        some { hm with table := hm.table.set index { e with data := some data } }
      else hmInsertLoop data key step iters ((index + step) % hm.size) hm
    else
      some { hm with
        table := hm.table.set index ⟨some data, e.flags ||| ACTIVE, key⟩
        count := hm.count + 1 }

/-- `hashmapInsert` / `rehash` as one primitive recursion on explicit
fuel, so that the definitions evaluate: level `fuel + 1` provides the
insert of `hashmapInsert(hash, data, key)` — grow when `size <= count`,
run the bounded probe pass, and on exhaustion rehash and retry (the
`do { … rehash(hash); } while (1)` loop, one fuel unit per retry) — and
the rehash of `rehash(hm)` — double the table, reset the count, re-insert
every `ACTIVE` entry walking the old table top-down
(`while (--size >= 0)`), each re-insertion through the level-`fuel`
insert.  The modelled executions never retry: the first probe pass always
finds a slot. -/
def hmOps : Nat → (Hashmap → CPtr → Nat → Hashmap) × (Hashmap → Hashmap)
  | 0 => (fun hm _ _ => hm, fun hm => hm)
  | fuel + 1 =>
    let ins := (hmOps fuel).1
    let reh : Hashmap → Hashmap := fun hm =>
      let fresh : Hashmap :=
        { table := List.replicate (hm.size * 2) hmDefaultEntry
          size := hm.size * 2
          count := 0 }
      (List.range hm.size).reverse.foldl
        (fun acc i =>
          let e := hm.table.getD i hmDefaultEntry
          if e.flags = ACTIVE then
            match e.data with
            | some d => ins acc d e.key
            | none => acc
          else acc)
        fresh
    (fun hm data key =>
      let hm1 := if hm.size ≤ hm.count then reh hm else hm
      match hmInsertLoop data key (key % (hm1.size - 2) + 1) hm1.size
          (key % hm1.size) hm1 with
      | some hm2 => hm2
      | none => ins (reh hm1) data key,
     reh)

/-- `hashmapInsert` with enough fuel for any execution modelled here. -/
def hashmapInsert (hm : Hashmap) (data : CPtr) (key : Nat) : Hashmap :=
  (hmOps 64).1 hm data key

/-- The bounded probe of `hashmapGet`: matching key → `data` if ACTIVE
else fail; empty `data` → fail; otherwise step on. -/
def hmGetLoop (key step : Nat) (table : List HEntry) (size : Nat) :
    Nat → Nat → Option CPtr
  | 0, _ => none
  | iters + 1, index =>
    let e := table.getD index hmDefaultEntry
    if e.key = key then
      (if e.flags &&& ACTIVE ≠ 0 then e.data else none)
    else if e.data = none then none
    else hmGetLoop key step table size iters ((index + step) % size)

/-- `hashmapGet(hash, key)`; `none` models the C `return 0`. -/
def hashmapGet (hm : Hashmap) (key : Nat) : Option CPtr :=
  if hm.count ≠ 0 then
    hmGetLoop key (key % (hm.size - 2) + 1) hm.table hm.size hm.size
      (key % hm.size)
  else none

/-! ## Column statistics state (`piggyback_statistics.h` + `piggyback.h`) -/

/-- An allocated C `int` cell: allocation identity plus stored value.
Distinct live allocations always have distinct identities. -/
structure IPtr where
  id : Nat
  val : Int
  deriving Repr, DecidableEq, Inhabited

/-- `be_PGAttDesc`. -/
structure AttDesc where
  rescolumnname : String
  srctableid : Int
  srccolumnid : Int
  rescolumnid : Int
  typid : Int
  deriving Repr, DecidableEq, Inhabited

/-- `be_PGColumnStatistic` — the fields the engine reads and writes.
`minValue`/`maxValue`/`mostFrequentValue` are `void*` (NULL until a
shortcut sets them); the temporaries are always-allocated cells.  All are
kept with their allocation identity because the observer compares these
fields by address. -/
structure ColumnStatistic where
  columnDescriptor : AttDesc
  isNumeric : Int
  n_distinct : Int
  n_distinctIsFinal : Bool
  minValue : Option IPtr
  minValueTemp : IPtr
  minValueIsFinal : Bool
  maxValue : Option IPtr
  maxValueTemp : IPtr
  maxValueIsFinal : Bool
  mostFrequentValue : Option IPtr
  mostFrequentValueIsFinal : Bool
  deriving Repr, DecidableEq, Inhabited

/-- C pointer equality of two `int*` expressions (`none` = NULL). -/
def iptrEq : Option IPtr → Option IPtr → Bool
  | some p, some q => p.id = q.id
  | none, none => true
  | _, _ => false

/-- The realized value of one result column in one produced row, as the
observer's `attr->atttypid` switch classifies it: NULL, the integer
classes (`INT8/INT2/INT2VECTOR/INT4`), `NUMERIC` (already converted by
`numeric_out` to its decimal string), the character classes
(`BPCHAR/VARCHAR`, as the C string of the datum), and every other type. -/
inductive ColValue where
  | vnull
  | vint (v : Int)
  | vnumeric (s : String)
  | vstr (s : String)
  | vother
  deriving Repr, DecidableEq, Inhabited

/-- Result of observing one column of one row. -/
structure ObsResult where
  col : ColumnStatistic
  hs : Hashset
  slot : CPtr × String
  alloc : Nat
  deriving Repr, DecidableEq

/-- One column's treatment inside the per-row observer loop of
`ExecProcNode` (the body of `for (i = 0; i < numberOfAttributes; i++)`,
entered only when not all three finality flags are set).

`bugWord` is the unspecified machine word produced by the buggy
`hashset_num_items(piggyback->distinctValues)` call in the integer branch
(the code passes the array of tracker pointers instead of the `i`-th
tracker, reinterpreting unrelated memory as a `struct hashset_st`);
`alloc` is the next fresh allocation identity.

Pointer faithfulness: `val_pntr` is a fresh `malloc`ed cell, so the
`minValueTemp == minValue` / `maxValueTemp == maxValue` address
comparisons are taken on allocation identities; the snapshot strings are
fresh per row except the two `""` literals. -/
def observeColumn (bugWord alloc : Nat) (c : ColumnStatistic) (h : Hashset)
    (slotOld : CPtr × String) (d : ColValue) : ObsResult :=
  if c.minValueIsFinal ∧ c.maxValueIsFinal ∧ c.n_distinctIsFinal then
    ⟨c, h, slotOld, alloc⟩
  else
    match d with
    | .vnull => ⟨c, h, (CPtr.litNull, ""), alloc⟩
    | .vint v =>
      let valPtr : IPtr := ⟨alloc, v⟩
      let slot : CPtr × String := (CPtr.fresh (alloc + 1), toString v)
      let c1 := { c with isNumeric := 1 }
      let c2 :=
        if v < c1.minValueTemp.val then
          let cA := { c1 with minValueTemp := valPtr }
          if iptrEq (some valPtr) cA.minValue then
            { cA with minValueIsFinal := true }
          else cA
        else c1
      let c3 :=
        if v > c2.maxValueTemp.val then
          let cB := { c2 with maxValueTemp := valPtr }
          if iptrEq (some valPtr) cB.maxValue then
            { cB with maxValueIsFinal := true }
          else cB
        else c2
      if ¬ c3.n_distinctIsFinal then
        let h1 := (hashset_add_integer h v).2
        let c4 :=
          if bugWord = sizeT c3.n_distinct then
            { c3 with n_distinctIsFinal := true }
          else c3
        ⟨c4, h1, slot, alloc + 2⟩
      else ⟨c3, h, slot, alloc + 2⟩
    | .vnumeric s =>
      let slot : CPtr × String := (CPtr.fresh (alloc + 1), s)
      let c1 := { c with isNumeric := 0 }
      if ¬ c1.n_distinctIsFinal then
        let h1 := (hashset_add_string h s).2
        let c2 :=
          if hashset_num_items h1 = sizeT c1.n_distinct then
            { c1 with n_distinctIsFinal := true }
          else c1
        ⟨c2, h1, slot, alloc + 2⟩
      else ⟨c1, h, slot, alloc + 2⟩
    | .vstr s =>
      let slot : CPtr × String := (CPtr.fresh alloc, s)
      let c1 := { c with isNumeric := 0 }
      if ¬ c1.n_distinctIsFinal then
        let h1 := (hashset_add_string h s).2
        let c2 :=
          if hashset_num_items h1 = sizeT c1.n_distinct then
            { c1 with n_distinctIsFinal := true }
          else c1
        ⟨c2, h1, slot, alloc + 1⟩
      else ⟨c1, h, slot, alloc + 1⟩
    | .vother => ⟨c, h, (CPtr.litOther, ""), alloc⟩

/-- The `Piggyback` singleton (`struct _piggyback`): result statistics,
per-column distinct trackers, per-ordered-pair FD maps, the per-row value
snapshot, the tracked table oids, counters, the one-shot pruning flag —
plus the allocation counter and the unspecified `bugWord` for the
modelling of addresses and of the type-punned count read. -/
structure Pb where
  cols : List ColumnStatistic
  distinctValues : List Hashset
  twoColumnsCombinations : List (Option Hashmap)
  slotValues : List (CPtr × String)
  tableOids : List Int
  numberOfAttributes : Nat
  numberOfTuples : Int
  fdsPruned : Bool
  nextAlloc : Nat
  bugWord : Nat
  deriving Repr, DecidableEq

/-- The observer loop over a row's columns, threading the allocation
counter; returns the counter and the updated statistics, trackers and
snapshot. -/
def statsCols (bugWord : Nat) :
    Nat → List ColumnStatistic → List Hashset → List (CPtr × String) →
    List ColValue →
    Nat × List ColumnStatistic × List Hashset × List (CPtr × String)
  | alloc, c :: cs, h :: hs, s :: ss, d :: ds =>
    let r := observeColumn bugWord alloc c h s d
    let rest := statsCols bugWord r.alloc cs hs ss ds
    (rest.1, r.col :: rest.2.1, r.hs :: rest.2.2.1, r.slot :: rest.2.2.2)
  | alloc, cs, hs, ss, _ => (alloc, cs, hs, ss)

/-- `index = indexBlock + indexSummand` with `indexBlock = i * (n - 1)`
and `indexSummand = j > i ? j - 1 : j`. -/
def pairIndex (n i j : Nat) : Nat :=
  i * (n - 1) + (if j > i then j - 1 else j)

/-- The body of `prune`'s inner loop for the ordered pair `(i, j)`. -/
def pruneStep (pbj : Pb) (i j : Nat) : Pb :=
  if i = j then pbj
  else
    let ci := pbj.cols.getD i default
    let cj := pbj.cols.getD j default
    if ci.n_distinct ≠ 0 ∧ cj.n_distinct ≠ 0 then
      if ci.n_distinct < cj.n_distinct ∧ cj.n_distinctIsFinal then
        { pbj with twoColumnsCombinations :=
            (pbj.twoColumnsCombinations.set
              (pairIndex pbj.numberOfAttributes i j) none) }
      else pbj
    else pbj

/-- `prune()`: for every ordered pair with both distinct counts non-zero,
discard the pair's map when the determinant's count is strictly below the
dependent's and the dependent's count is final. -/
def prune (pb : Pb) : Pb :=
  (List.range pb.numberOfAttributes).foldl
    (fun pbi i =>
      (List.range pbi.numberOfAttributes).foldl
        (fun pbj j => pruneStep pbj i j)
        pbi)
    pb

/-- The body of the FD tracking loop for the ordered pair `(i, j)`:
lookup by the determinant's snapshot hash, insert the dependent's
snapshot pointer when absent, discard the map when the stored pointer
differs from the current row's pointer. -/
def fdPairStep (pbj : Pb) (i j : Nat) : Pb :=
  if i = j then pbj
  else
    let index := pairIndex pbj.numberOfAttributes i j
    match pbj.twoColumnsCombinations.getD index none with
    | none => pbj
    | some targetMap =>
      let key := hashStr (pbj.slotValues.getD i default).2
      match hashmapGet targetMap key with
      | none =>
        { pbj with twoColumnsCombinations :=
            (pbj.twoColumnsCombinations.set index
              (some (hashmapInsert targetMap
                (pbj.slotValues.getD j default).1 key))) }
      | some rhs =>
        if rhs ≠ (pbj.slotValues.getD j default).1 then
          { pbj with twoColumnsCombinations :=
              (pbj.twoColumnsCombinations.set index none) }
        else pbj

/-- `fillFDCandidateMaps()`: one-shot prune, then for every ordered pair
`(i, j)` with a surviving map, look up `hash(slotValues[i])`; when absent
insert `slotValues[j]` (the `char*` itself) under that key; when present
discard the map if the stored pointer differs from the current row's
pointer — `rhs != piggyback->slotValues[j]` compares addresses, not
string contents. -/
def fillFDCandidateMaps (pb0 : Pb) : Pb :=
  let pb :=
    if ¬ pb0.fdsPruned then { prune pb0 with fdsPruned := true } else pb0
  (List.range pb.numberOfAttributes).foldl
    (fun pbi i =>
      (List.range pbi.numberOfAttributes).foldl
        (fun pbj j => fdPairStep pbj i j)
        pbi)
    pb

/-- Modelled from the spec: the executor glue around the per-row
observer.  `ExecProcNode` runs the statistics loop on each row the root
node produces; per §2/§4.6 of the spec the FDCandidateEngine consumes the
row snapshot on every row and the Reporter uses the total row count, so
processing a row also invokes `fillFDCandidateMaps` and bumps
`numberOfTuples` (the executor snapshot under `src/` keeps the
`calculateFDs` flag and the tuple counter in code outside the snapshot). -/
def processRow (pb : Pb) (row : List ColValue) : Pb :=
  let r := statsCols pb.bugWord pb.nextAlloc pb.cols pb.distinctValues
    pb.slotValues row
  let pb1 := { pb with
    nextAlloc := r.1
    cols := r.2.1
    distinctValues := r.2.2.1
    slotValues := r.2.2.2 }
  let pb2 := fillFDCandidateMaps pb1
  { pb2 with numberOfTuples := pb2.numberOfTuples + 1 }

def runRows (pb : Pb) (rows : List (List ColValue)) : Pb :=
  rows.foldl processRow pb

/-- Modelled from the spec: creation of the per-query context (§3
"Lifecycle", §4.1 `initialize(columnCount)`) — the allocating code is not
part of the repository snapshot.  Every column starts without a shortcut:
zeroed statistic (`n_distinct = 0`, all flags false, NULL permanent
bounds), per-column temporary bound cells holding the given initial
bounds, a fresh distinct tracker per column, one
`hashmapCreate(TABLE_STARTSIZE)` map per ordered column pair, and an
empty snapshot. -/
def initPb (descs : List AttDesc) (minInit maxInit : Int) (bugWord : Nat) : Pb :=
  let n := descs.length
  { cols := (List.range n).map (fun i =>
      { columnDescriptor := descs.getD i default
        isNumeric := 0
        n_distinct := 0
        n_distinctIsFinal := false
        minValue := none
        minValueTemp := ⟨2 * i, minInit⟩
        minValueIsFinal := false
        maxValue := none
        maxValueTemp := ⟨2 * i + 1, maxInit⟩
        maxValueIsFinal := false
        mostFrequentValue := none
        mostFrequentValueIsFinal := false })
    distinctValues := List.replicate n hashset_create
    twoColumnsCombinations :=
      List.replicate (n * (n - 1)) (some (hashmapCreate TABLE_STARTSIZE))
    slotValues := List.replicate n default
    tableOids := []
    numberOfAttributes := n
    numberOfTuples := 0
    fdsPruned := false
    nextAlloc := 2 * n
    bugWord := bugWord }

/-! ## The reporters (`printMetaData` of the newer piggyback.c snapshot) -/

/-- One per-column record of the metadata message
(`pq_sendstring(name); pq_sendint(i); pq_sendint(distinct);
pq_sendint(min); pq_sendint(max); pq_sendint(isNumeric)`). -/
structure ColReport where
  name : String
  index : Nat
  distinctCount : Int
  minValue : Int
  maxValue : Int
  isNumeric : Int
  deriving Repr, DecidableEq, Inhabited

/-- The distinct-count resolution of `printSingleColumnStatistics`:
non-final → the tracker's item count; `-1` → the tuple count;
a fraction in `(-1, 0)` → tuple count times its magnitude; otherwise the
stored value.  (C holds the intermediate in a `float4`; exact for every
count below `2^24`.) -/
def resolveDistinctCount (c : ColumnStatistic) (h : Hashset)
    (numberOfTuples : Int) : Int :=
  if c.n_distinctIsFinal = false then (hashset_num_items h : Int)
  else if c.n_distinct = -1 then numberOfTuples
  else if -1 < c.n_distinct ∧ c.n_distinct < 0 then
    numberOfTuples * c.n_distinct * -1
  else c.n_distinct

/-- `printSingleColumnStatistics`: with no tuples only a zero column count
is sent; otherwise each column's resolved distinct count is written back
into `n_distinct` and the message carries name, result index, distinct
count, the values of the *temporary* min/max cells, and the numeric flag. -/
def printSingleColumnStatistics (pb : Pb) : List ColReport × Pb :=
  if pb.numberOfTuples ≤ 0 then ([], pb)
  else
    ((List.range pb.numberOfAttributes).map (fun i =>
      let c := pb.cols.getD i default
      let dc := resolveDistinctCount c (pb.distinctValues.getD i hashset_create)
        pb.numberOfTuples
      { name := c.columnDescriptor.rescolumnname
        index := i
        distinctCount := dc
        minValue := c.minValueTemp.val
        maxValue := c.maxValueTemp.val
        isNumeric := c.isNumeric }),
     { pb with cols := ((List.range pb.numberOfAttributes).map (fun i =>
        let c := pb.cols.getD i default
        { c with n_distinct := (resolveDistinctCount c
            (pb.distinctValues.getD i hashset_create) pb.numberOfTuples) })) })

/-- The ordered pairs whose FD map is still present, in the emission
loop's order. -/
def fdSurvivingPairs (pb : Pb) : List (Nat × Nat) :=
  (List.range pb.numberOfAttributes).flatMap (fun i =>
    (List.range pb.numberOfAttributes).filterMap (fun j =>
      if i = j then none
      else if (pb.twoColumnsCombinations.getD
          (pairIndex pb.numberOfAttributes i j) none).isSome then
        some (i, j)
      else none))

/-- `printFunctionalDependencies`: with no tuples a zero count is sent;
otherwise every ordered pair whose map still exists is emitted as a
functional dependency — determinant name, dependent name — with no
comparison of the map's key count against any distinct count. -/
def printFunctionalDependencies (pb : Pb) : List (String × String) :=
  if pb.numberOfTuples ≤ 0 then []
  else (fdSurvivingPairs pb).map (fun p =>
    ((pb.cols.getD p.1 default).columnDescriptor.rescolumnname,
     (pb.cols.getD p.2 default).columnDescriptor.rescolumnname))

/-- `printMetaData` of the newer snapshot: single-column statistics (with
its `n_distinct` write-back), then the functional dependencies. -/
def printMetaData (pb : Pb) : List ColReport × List (String × String) :=
  let r := printSingleColumnStatistics pb
  (r.1, printFunctionalDependencies r.2)

/-! ## Predicate shortcuts and invalidation (`execProcnode.c` part) -/

/-- The body of `InvalidateStatisticsForTable` applied to one obsolete
column: the four finality flags are zeroed, nothing else changes. -/
def clearFinalFlags (c : ColumnStatistic) : ColumnStatistic :=
  { c with
    n_distinctIsFinal := false
    minValueIsFinal := false
    maxValueIsFinal := false
    mostFrequentValueIsFinal := false }

/-- `InvalidateStatisticsForTable(tableOid)`: clears the four finality
flags of every column whose descriptor's source table oid equals
`tableOid`; every other field and every other column is untouched. -/
def InvalidateStatisticsForTable (pb : Pb) (tableOid : Int) : Pb :=
  { pb with cols := (pb.cols.map (fun c =>
      if tableOid = c.columnDescriptor.srctableid then clearFinalFlags c
      else c)) }

/-- `InvalidateStatisticsForTables(oldTableOids)`: collects the currently
tracked oids that do not occur (compared by value) in `oldTableOids`,
then invalidates each of them. -/
def InvalidateStatisticsForTables (pb : Pb) (oldTableOids : List Int) : Pb :=
  let relevantTableOids :=
    pb.tableOids.filter (fun oid => ¬ oldTableOids.contains oid)
  relevantTableOids.foldl InvalidateStatisticsForTable pb

/-- `SetStatisticValuesForEqual(equationValue, columnStatisticId,
columnData)`: only when the id is inside the result width, overwrite the
descriptor, set `isNumeric`, point min, max and most-frequent at the
*same* constant cell, set `n_distinct = 1` and all four finality flags. -/
def SetStatisticValuesForEqual (pb : Pb) (equationValue : IPtr)
    (columnStatisticId : Nat) (columnData : AttDesc) : Pb :=
  if columnStatisticId < pb.numberOfAttributes then
    let c := pb.cols.getD columnStatisticId default
    { pb with cols := (pb.cols.set columnStatisticId
      { c with
        columnDescriptor := columnData
        isNumeric := 1
        maxValue := some equationValue
        minValue := some equationValue
        mostFrequentValue := some equationValue
        n_distinct := 1
        n_distinctIsFinal := true
        minValueIsFinal := true
        maxValueIsFinal := true
        mostFrequentValueIsFinal := true }) }
  else pb

/-- `SetStatisticValuesForUnequal(greaterThan, orEquals, equationValue,
columnStatisticId, columnData)`: a fresh cell holding `v±1`/`v` becomes
the final min (for `>`/`>=`) or max (for `<`/`<=`); the distinct and
most-frequent flags are cleared. -/
def SetStatisticValuesForUnequal (pb0 : Pb) (greaterThan orEquals : Bool)
    (equationValue : IPtr) (columnStatisticId : Nat) (columnData : AttDesc) :
    Pb :=
  let v : Int :=
    if ¬ orEquals then
      (if greaterThan then equationValue.val + 1 else equationValue.val - 1)
    else equationValue.val
  let valueCell : IPtr := ⟨pb0.nextAlloc, v⟩
  let pb := { pb0 with nextAlloc := pb0.nextAlloc + 1 }
  if columnStatisticId < pb.numberOfAttributes then
    let c := pb.cols.getD columnStatisticId default
    let c1 := { c with columnDescriptor := columnData }
    let c2 :=
      if greaterThan then { c1 with minValue := some valueCell }
      else { c1 with maxValue := some valueCell }
    let c3 :=
      if greaterThan then { c2 with minValueIsFinal := true }
      else { c2 with maxValueIsFinal := true }
    { pb with cols := (pb.cols.set columnStatisticId
      { c3 with
        n_distinctIsFinal := false
        mostFrequentValueIsFinal := false }) }
  else pb

/-- One term of a scan's residual filter, as the analyzer reads it: the
operator oid, the referenced column (`varattno` of the first operand) and
the constant cell (`&constvalue` inside the plan's `Const` node). -/
structure QualTerm where
  opno : Int
  columnId : Int
  constCell : IPtr
  deriving Repr, DecidableEq

/-- The operator oids recognized as equality (from `pg_operator.h`). -/
def equalityOpnos : List Int := [94, 96, 410, 416, 1862, 1868, 15, 532, 533]

def lessThanOpnos : List Int := [37, 95, 97, 412, 418, 534, 535, 1864, 1870]

def lessEqOpnos : List Int := [80, 414, 420, 522, 523, 540, 541, 1866, 1872]

def greaterThanOpnos : List Int := [76, 413, 419, 520, 521, 536, 1865, 1871]

def greaterEqOpnos : List Int :=
  [82, 415, 430, 524, 525, 537, 542, 543, 1867, 1873]

/-- The scan in `LookForFilterWithEquality` that locates the result
position of `(tableOid, srccolumnid)`;  `numberOfAttributes` (one past
the end) when no column matches. -/
def findColumnIndexFrom (tableOid columnId : Int) :
    Nat → List ColumnStatistic → Nat
  | i, [] => i
  | i, c :: cs =>
    if tableOid = c.columnDescriptor.srctableid ∧
        columnId = c.columnDescriptor.srccolumnid then i
    else findColumnIndexFrom tableOid columnId (i + 1) cs

def findColumnIndex (pb : Pb) (tableOid columnId : Int) : Nat :=
  findColumnIndexFrom tableOid columnId 0 pb.cols

/-- `LookForFilterWithEquality(result, tableOid, qual)`: examines only the
first filter term; builds a fresh `malloc`ed descriptor of which only
`srccolumnid` (and later `typid = 20`) is written — its remaining fields
are indeterminate and modelled as fixed defaults; always invalidates the
whole table's statistics, then dispatches on the operator id (an
unrecognized operator only leaves the diagnostic `printf`). -/
def LookForFilterWithEquality (pb0 : Pb) (tableOid : Int)
    (qual : List QualTerm) : Pb :=
  match qual with
  | [] => pb0
  | q :: _ =>
    let columnData : AttDesc :=
      { rescolumnname := "", srctableid := -1, srccolumnid := q.columnId,
        rescolumnid := -1, typid := 0 }
    let i := findColumnIndex pb0 tableOid q.columnId
    let pb := InvalidateStatisticsForTable pb0 tableOid
    if equalityOpnos.contains q.opno then
      SetStatisticValuesForEqual pb q.constCell i
        { columnData with typid := 20 }
    else if lessThanOpnos.contains q.opno then
      SetStatisticValuesForUnequal pb false false q.constCell i
        { columnData with typid := 20 }
    else if lessEqOpnos.contains q.opno then
      SetStatisticValuesForUnequal pb false true q.constCell i
        { columnData with typid := 20 }
    else if greaterThanOpnos.contains q.opno then
      SetStatisticValuesForUnequal pb true false q.constCell i
        { columnData with typid := 20 }
    else if greaterEqOpnos.contains q.opno then
      SetStatisticValuesForUnequal pb true true q.constCell i
        { columnData with typid := 20 }
    else pb

/-! ## Derived value projections used in the statements -/

/-- The 64-bit key the observer feeds into a column's distinct tracker for
one realized value: the (sign-extended) integer itself for the integer
classes, the djb2 hash of the string form for decimal and character
values, nothing for NULL and unrecognized types. -/
def valueKey : ColValue → Option Nat
  | .vnull => none
  | .vint v => some (sizeT v)
  | .vnumeric s => some (hashStr s)
  | .vstr s => some (hashStr s)
  | .vother => none

/-- Proof-side projection of `observeColumn` onto the distinct-tracking
state `(n_distinctIsFinal, tracker)` of one column whose permanent bounds
are still NULL (no shortcut): the integer branch compares `bugWord`
against `(size_t) n_distinct`, the decimal/character branches compare the
tracker's item count; NULL and unrecognized values change nothing. -/
def distinctStep (bugWord : Nat) (nd : Int) :
    Bool × Hashset → ColValue → Bool × Hashset
  | (fin, h), .vnull => (fin, h)
  | (fin, h), .vother => (fin, h)
  | (fin, h), .vint v =>
    if fin then (fin, h)
    else ((if bugWord = sizeT nd then true else fin),
      (hashset_add_integer h v).2)
  | (fin, h), .vnumeric s =>
    if fin then (fin, h)
    else
      let h1 := (hashset_add_string h s).2
      ((if hashset_num_items h1 = sizeT nd then true else fin), h1)
  | (fin, h), .vstr s =>
    if fin then (fin, h)
    else
      let h1 := (hashset_add_string h s).2
      ((if hashset_num_items h1 = sizeT nd then true else fin), h1)

/-! ## Concrete objects used by the claim evaluations -/

def INT_MAX : Int := 2147483647

def INT_MIN : Int := -2147483648

/-- Integer result column `A` (source table 100, source column 1). -/
def descA : AttDesc :=
  { rescolumnname := "A", srctableid := 100, srccolumnid := 1,
    rescolumnid := 0, typid := 23 }

/-- Varchar result column `B` (source table 100, source column 2). -/
def descB : AttDesc :=
  { rescolumnname := "B", srctableid := 100, srccolumnid := 2,
    rescolumnid := 1, typid := 1043 }

/-- Varchar result column `C`. -/
def descC : AttDesc :=
  { rescolumnname := "C", srctableid := 100, srccolumnid := 1,
    rescolumnid := 0, typid := 1043 }

/-- A fresh two-column context over `A`, `B` (no shortcut applied;
`bugWord = 1`, i.e. the type-punned word does not equal `(size_t) 0`). -/
def pbAB : Pb := initPb [descA, descB] INT_MAX INT_MIN 1

/-- A fresh one-column context over `C`. -/
def pbC : Pb := initPb [descC] INT_MAX INT_MIN 1

/-- The C2 row stream with A = {1,1,2,2,3}, B = {x,x,y,y,z}. -/
def fdRowsFunctional : List (List ColValue) :=
  [[.vint 1, .vstr "x"], [.vint 1, .vstr "x"], [.vint 2, .vstr "y"],
   [.vint 2, .vstr "y"], [.vint 3, .vstr "z"]]

/-- The C2 row stream with A = {1,1,2}, B = {x,y,y}. -/
def fdRowsViolating : List (List ColValue) :=
  [[.vint 1, .vstr "x"], [.vint 1, .vstr "y"], [.vint 2, .vstr "y"]]

/-- Two rows over two columns of unrecognized type: both snapshot entries
are the `""` literal of the default branch on every row. -/
def otherRows : List (List ColValue) :=
  [[.vother, .vother], [.vother, .vother]]

/-- Two rows whose first column is NULL and whose second column realizes
the string `"x"` (a fresh `char*` each row). -/
def nullRows : List (List ColValue) :=
  [[.vnull, .vstr "x"], [.vnull, .vstr "x"]]

/-- A column as left by a min/max shortcut on the value 7 followed by an
invalidation: the permanent bounds point at cells holding 7 resp. 100,
the finality flags are cleared, and the temporary bounds currently hold
10 resp. 50. -/
def c4Column : ColumnStatistic :=
  { columnDescriptor := descA
    isNumeric := 1
    n_distinct := 0
    n_distinctIsFinal := false
    minValue := some ⟨5, 7⟩
    minValueTemp := ⟨6, 10⟩
    minValueIsFinal := false
    maxValue := some ⟨7, 100⟩
    maxValueTemp := ⟨8, 50⟩
    maxValueIsFinal := false
    mostFrequentValue := none
    mostFrequentValueIsFinal := false }

/-- The two-column context with two tables' oids already tracked. -/
def pbABt : Pb := { pbAB with tableOids := [100, 200] }

/-- An equality filter term `column 1 = 5` with operator oid 94
(`int2eq`); the constant cell sits inside the plan's Const node. -/
def qualEq : QualTerm := { opno := 94, columnId := 1, constCell := ⟨40, 5⟩ }

/-- Well-formedness of the per-query context: the parallel per-column
arrays all have `numberOfAttributes` entries. -/
def WFpb (pb : Pb) : Prop :=
  pb.cols.length = pb.numberOfAttributes ∧
  pb.distinctValues.length = pb.numberOfAttributes ∧
  pb.slotValues.length = pb.numberOfAttributes

/-- A one-column integer run with values 1, 1, 2. -/
def c1Rows : List (List ColValue) := [[.vint 1], [.vint 1], [.vint 2]]

/-- A fresh one-column context over the integer column `A`. -/
def pbA1 : Pb := initPb [descA] INT_MAX INT_MIN 1

/-! ## Lemmas and claim theorems -/

/-! ### Slot-array helper lemmas -/


theorem getD_set_ne {α : Type} {l : List α} {i j : Nat} (h : i ≠ j) (v d : α) :
    (l.set i v).getD j d = l.getD j d := by
  simp [List.getD_eq_getElem?_getD, List.getElem?_set_ne h]

theorem getD_set_self {α : Type} {l : List α} {i : Nat} (h : i < l.length)
    (v d : α) : (l.set i v).getD i d = v := by
  simp [List.getD_eq_getElem?_getD, List.getElem?_set_self h]

theorem getD_mem {α : Type} {l : List α} {i : Nat} (h : i < l.length) (d : α) :
    l.getD i d ∈ l := by
  rw [List.getD_eq_getElem?_getD, List.getElem?_eq_getElem h]
  exact List.getElem_mem h

theorem getD_map {α β : Type} (f : α → β) {l : List α} {i : Nat}
    (h : i < l.length) (d : α) (d' : β) :
    (l.map f).getD i d' = f (l.getD i d) := by
  rw [List.getD_eq_getElem?_getD, List.getD_eq_getElem?_getD,
    List.getElem?_eq_getElem h, List.getElem?_eq_getElem (by simpa using h)]
  simp

/-- If some slot is `nil`, the live slots are strictly fewer than all slots. -/
theorem exists_nil_of_liveSlots_lt {l : List Nat}
    (h : (liveSlots l).length < l.length) :
    ∃ j, j < l.length ∧ l.getD j 0 = nilKey := by
  by_contra hno
  push_neg at hno
  have hall : ∀ a ∈ l, (fun x => decide (x ≠ nilKey)) a = true := by
    intro a ha
    obtain ⟨i, hi, rfl⟩ := List.getElem_of_mem ha
    have := hno i hi
    simp only [List.getD_eq_getElem?_getD, List.getElem?_eq_getElem hi] at this
    simpa using this
  have : liveSlots l = l := List.filter_eq_self.mpr hall
  rw [this] at h
  exact Nat.lt_irrefl _ h

/-- Writing a fresh live value into a `nil` slot permutes the live slots to
the value consed onto the old live slots. -/
theorem liveSlots_set (v : Nat) (hv : v ≠ nilKey) :
    ∀ (l : List Nat) (i : Nat), i < l.length → l.getD i 0 = nilKey →
    List.Perm (liveSlots (l.set i v)) (v :: liveSlots l) := by
  intro l
  induction l with
  | nil => intro i h; simp at h
  | cons x xs ih =>
    intro i hi hslot
    cases i with
    | zero =>
      have hx : x = nilKey := by simpa using hslot
      subst hx
      simp [liveSlots, List.filter_cons, hv]
    | succ n =>
      have hn : n < xs.length := by simpa using hi
      have hs : xs.getD n 0 = nilKey := by simpa using hslot
      have hperm := ih n hn hs
      by_cases hx : x = nilKey
      · subst hx
        simpa [liveSlots, List.filter_cons] using hperm
      · simp only [List.set_cons_succ, liveSlots, List.filter_cons, ne_eq, hx,
          not_false_eq_true, decide_True, if_true]
        exact (hperm.cons x).trans (List.Perm.swap v x _)

/-! ### The probe sequence -/


theorem probeIter_le_mask {mask ii : Nat} (h : ii ≤ mask) :
    ∀ t, probeIter mask ii t ≤ mask
  | 0 => h
  | _ + 1 => Nat.and_le_left

theorem probeIter_succ_shift (mask ii : Nat) :
    ∀ t, probeIter mask ii (t + 1) =
      probeIter mask (mask &&& (ii + prime_2)) t := by
  intro t
  induction t with
  | zero => rfl
  | succ n ihn => rw [probeIter, ihn, probeIter]

theorem probeIter_mod {mask k ii : Nat} (hm : mask = 2 ^ k - 1)
    (hii : ii < 2 ^ k) :
    ∀ t, probeIter mask ii t = (ii + t * prime_2) % 2 ^ k := by
  intro t
  induction t with
  | zero => simpa [probeIter] using (Nat.mod_eq_of_lt hii).symm
  | succ n ihn =>
    rw [probeIter, ihn, hm, Nat.and_comm, Nat.and_pow_two_sub_one_eq_mod,
      Nat.mod_add_mod]
    congr 1
    ring

theorem probeIter_inj {mask k ii : Nat} (hm : mask = 2 ^ k - 1)
    (hii : ii < 2 ^ k) {t1 t2 : Nat} (h1 : t1 < 2 ^ k) (h2 : t2 < 2 ^ k)
    (he : probeIter mask ii t1 = probeIter mask ii t2) : t1 = t2 := by
  rw [probeIter_mod hm hii, probeIter_mod hm hii] at he
  have hmod : ii + t1 * prime_2 ≡ ii + t2 * prime_2 [MOD 2 ^ k] := he
  have hmul : t1 * prime_2 ≡ t2 * prime_2 [MOD 2 ^ k] :=
    Nat.ModEq.add_left_cancel' ii hmod
  have hcop : Nat.gcd (2 ^ k) prime_2 = 1 :=
    Nat.Coprime.pow_left k (by decide)
  have hteq : t1 ≡ t2 [MOD 2 ^ k] := by
    refine Nat.ModEq.cancel_left_of_coprime hcop ?_
    simpa [Nat.mul_comm] using hmul
  have := hteq
  unfold Nat.ModEq at this
  rw [Nat.mod_eq_of_lt h1, Nat.mod_eq_of_lt h2] at this
  exact this

/-! ### Behaviour of the insert probe loop -/

theorem addLoop_idx_le {items : List Nat} {mask value : Nat} :
    ∀ (fuel ii : Nat), ii ≤ mask → ∀ {b : Bool} {jj : Nat},
      addLoop items mask value fuel ii = some (b, jj) → jj ≤ mask := by
  intro fuel
  induction fuel with
  | zero => intro ii _ b jj h; simp [addLoop] at h
  | succ n ih =>
    intro ii hii b jj h
    rw [addLoop] at h
    by_cases hlive : items.getD ii 0 ≠ nilKey ∧ items.getD ii 0 ≠ remKey
    · rw [if_pos hlive] at h
      by_cases heq : items.getD ii 0 = value
      · rw [if_pos heq] at h
        cases h
        exact hii
      · rw [if_neg heq] at h
        exact ih _ Nat.and_le_left h
    · rw [if_neg hlive] at h
      cases h
      exact hii

theorem addLoop_found_eq {items : List Nat} {mask value : Nat} :
    ∀ (fuel ii : Nat) {jj : Nat},
      addLoop items mask value fuel ii = some (true, jj) →
      items.getD jj 0 = value := by
  intro fuel
  induction fuel with
  | zero => intro ii jj h; simp [addLoop] at h
  | succ n ih =>
    intro ii jj h
    rw [addLoop] at h
    by_cases hlive : items.getD ii 0 ≠ nilKey ∧ items.getD ii 0 ≠ remKey
    · rw [if_pos hlive] at h
      by_cases heq : items.getD ii 0 = value
      · rw [if_pos heq] at h
        cases h
        exact heq
      · rw [if_neg heq] at h
        exact ih _ h
    · rw [if_neg hlive] at h
      cases h

theorem addLoop_free_eq {items : List Nat} {mask value : Nat} :
    ∀ (fuel ii : Nat) {jj : Nat},
      addLoop items mask value fuel ii = some (false, jj) →
      items.getD jj 0 = nilKey ∨ items.getD jj 0 = remKey := by
  intro fuel
  induction fuel with
  | zero => intro ii jj h; simp [addLoop] at h
  | succ n ih =>
    intro ii jj h
    rw [addLoop] at h
    by_cases hlive : items.getD ii 0 ≠ nilKey ∧ items.getD ii 0 ≠ remKey
    · rw [if_pos hlive] at h
      by_cases heq : items.getD ii 0 = value
      · rw [if_pos heq] at h
        cases h
      · rw [if_neg heq] at h
        exact ih _ h
    · rw [if_neg hlive] at h
      cases h
      by_cases hn : items.getD ii 0 = nilKey
      · exact Or.inl hn
      · refine Or.inr ?_
        by_contra hr
        exact hlive ⟨hn, hr⟩

theorem addLoop_none_live {items : List Nat} {mask value : Nat} :
    ∀ (fuel ii : Nat), addLoop items mask value fuel ii = none →
    ∀ t, t < fuel →
      items.getD (probeIter mask ii t) 0 ≠ nilKey ∧
      items.getD (probeIter mask ii t) 0 ≠ remKey := by
  intro fuel
  induction fuel with
  | zero => intro ii _ t ht; omega
  | succ n ih =>
    intro ii h t ht
    rw [addLoop] at h
    by_cases hlive : items.getD ii 0 ≠ nilKey ∧ items.getD ii 0 ≠ remKey
    · rw [if_pos hlive] at h
      by_cases heq : items.getD ii 0 = value
      · rw [if_pos heq] at h
        cases h
      · rw [if_neg heq] at h
        cases t with
        | zero => exact hlive
        | succ m =>
          rw [probeIter_succ_shift]
          exact ih _ h m (by omega)
    · rw [if_neg hlive] at h
      cases h

/-- With a `nil` slot present, `capacity` probes are always enough: the
probe step `ii ↦ mask & (ii + prime_2)` with `mask = 2^k - 1` is addition
of the odd constant `5009` modulo `2^k`, which enumerates every slot. -/
theorem addLoop_total {items : List Nat} {mask value k ii : Nat}
    (hm : mask = 2 ^ k - 1) (hlen : items.length = 2 ^ k) (hii : ii < 2 ^ k)
    (hfree : ∃ j, j < items.length ∧ items.getD j 0 = nilKey) :
    addLoop items mask value (2 ^ k) ii ≠ none := by
  intro hnone
  obtain ⟨j, hj, hjn⟩ := hfree
  have hlive := @addLoop_none_live items mask value (2 ^ k) ii hnone
  have hmask_lt : mask < 2 ^ k := by
    have : (0 : Nat) < 2 ^ k := Nat.pos_pow_of_pos k (by omega)
    omega
  have hbound : ∀ t : Nat, probeIter mask ii t < 2 ^ k := by
    intro t
    have := @probeIter_le_mask mask ii (by omega) t
    omega
  have hinj : Function.Injective
      (fun t : Fin (2 ^ k) => (⟨probeIter mask ii t.val, hbound t.val⟩ : Fin (2 ^ k))) := by
    intro t1 t2 he
    have := probeIter_inj hm hii t1.isLt t2.isLt (by
      have := congrArg Fin.val he
      simpa using this)
    exact Fin.ext this
  have hsurj := Finite.injective_iff_surjective.mp hinj
  obtain ⟨t, ht⟩ := hsurj ⟨j, by omega⟩
  have hslot : probeIter mask ii t.val = j := by
    have := congrArg Fin.val ht
    simpa using this
  have := (hlive t.val t.isLt).1
  rw [hslot] at this
  exact this hjn

/-! ### Behaviour of the membership probe loop -/

theorem findLoop_sound {items : List Nat} {mask value : Nat}
    (hmask : mask < items.length) :
    ∀ (fuel ii : Nat), ii ≤ mask →
      findLoop items mask value fuel ii = true →
      value ∈ items ∧ value ≠ nilKey := by
  intro fuel
  induction fuel with
  | zero => intro ii _ h; simp [findLoop] at h
  | succ n ih =>
    intro ii hii h
    rw [findLoop] at h
    by_cases hnil : items.getD ii 0 ≠ nilKey
    · rw [if_pos hnil] at h
      by_cases heq : items.getD ii 0 = value
      · refine ⟨?_, by rw [← heq]; exact hnil⟩
        rw [← heq]
        exact getD_mem (by omega) 0
      · rw [if_neg heq] at h
        exact ih _ Nat.and_le_left h
    · rw [if_neg hnil] at h
      cases h

/-- A successful membership walk survives writing a live value into any
slot that currently holds `nil`: the walk never crossed that slot. -/
theorem findLoop_preserve {items : List Nat} {mask value jj w : Nat}
    (hjj : items.getD jj 0 = nilKey) :
    ∀ (fuel ii : Nat),
      findLoop items mask value fuel ii = true →
      findLoop (items.set jj w) mask value fuel ii = true := by
  intro fuel
  induction fuel with
  | zero => intro ii h; simp [findLoop] at h
  | succ n ih =>
    intro ii h
    rw [findLoop] at h ⊢
    by_cases hnil : items.getD ii 0 ≠ nilKey
    · have hne : jj ≠ ii := by
        intro hcontra
        rw [hcontra] at hjj
        exact hnil hjj
      rw [getD_set_ne hne]
      rw [if_pos hnil] at h ⊢
      by_cases heq : items.getD ii 0 = value
      · rw [if_pos heq]
      · rw [if_neg heq] at h ⊢
        exact ih _ h
    · rw [if_neg hnil] at h
      cases h

/-- After inserting `value` into the free slot its probe loop found, the
membership walk with the same fuel finds it. -/
theorem addLoop_insert_found {items : List Nat} {mask value : Nat}
    (hv : value ≠ nilKey) (hlen : mask < items.length) :
    ∀ (fuel ii : Nat), ii ≤ mask → ∀ {jj : Nat},
      addLoop items mask value fuel ii = some (false, jj) →
      findLoop (items.set jj value) mask value fuel ii = true := by
  intro fuel
  induction fuel with
  | zero => intro ii _ jj h; simp [addLoop] at h
  | succ n ih =>
    intro ii hii jj h
    have hfree := addLoop_free_eq _ _ h
    rw [addLoop] at h
    rw [findLoop]
    by_cases hlive : items.getD ii 0 ≠ nilKey ∧ items.getD ii 0 ≠ remKey
    · rw [if_pos hlive] at h
      by_cases heq : items.getD ii 0 = value
      · rw [if_pos heq] at h
        cases h
      · rw [if_neg heq] at h
        have hne : jj ≠ ii := by
          intro hcontra
          rw [hcontra] at hfree
          rcases hfree with h1 | h1
          · exact hlive.1 h1
          · exact hlive.2 h1
        rw [getD_set_ne hne]
        rw [if_pos hlive.1, if_neg heq]
        exact ih _ Nat.and_le_left h
    · rw [if_neg hlive] at h
      cases h
      rw [getD_set_self (by omega) value 0]
      simp [hv]

/-- With no `rem` tombstones, a successful membership walk implies the
insert probe loop reports "already present". -/
theorem findLoop_to_addLoop {items : List Nat} {mask value : Nat}
    (hrem : remKey ∉ items) (hlen : mask < items.length) :
    ∀ (fuel ii : Nat), ii ≤ mask →
      findLoop items mask value fuel ii = true →
      ∃ jj, addLoop items mask value fuel ii = some (true, jj) := by
  intro fuel
  induction fuel with
  | zero => intro ii _ h; simp [findLoop] at h
  | succ n ih =>
    intro ii hii h
    rw [findLoop] at h
    rw [addLoop]
    by_cases hnil : items.getD ii 0 ≠ nilKey
    · have hnr : items.getD ii 0 ≠ remKey := by
        intro hcontra
        apply hrem
        rw [← hcontra]
        exact getD_mem (by omega) 0
      rw [if_pos hnil] at h
      rw [if_pos ⟨hnil, hnr⟩]
      by_cases heq : items.getD ii 0 = value
      · rw [if_pos heq]
        exact ⟨ii, rfl⟩
      · rw [if_neg heq] at h
        rw [if_neg heq]
        exact ih _ Nat.and_le_left h
    · rw [if_neg hnil] at h
      cases h

/-! ### The hash-set invariant -/


theorem isLiveKey_iff {x : Nat} : isLiveKey x = true ↔ x ≠ nilKey ∧ x ≠ remKey := by
  simp [isLiveKey]


theorem Inv_create : Inv hashset_create := by
  refine ⟨rfl, rfl, rfl, by decide, by decide, by decide, by decide, by decide⟩

theorem Inv.mask_lt_len {s : Hashset} (hs : Inv s) : s.mask < s.items.length := by
  obtain ⟨hcap, hmask, hlen, hbits, -⟩ := hs
  have : (0 : Nat) < 2 ^ s.nbits := Nat.pos_pow_of_pos _ (by omega)
  omega

/-- Inserting a sentinel fails and changes nothing. -/
theorem hashset_add_member_sentinel {s : Hashset} {v : Nat}
    (h : v = nilKey ∨ v = remKey) : hashset_add_member s v = (-1, s) := by
  rw [hashset_add_member, if_pos h]

/-- `hashset_add_member` on an already-stored key: returns `0`, set untouched. -/
theorem hashset_add_member_mem {s : Hashset} (hs : Inv s) {v : Nat}
    (hnil : v ≠ nilKey) (hrem : v ≠ remKey) (hv : v ∈ s.items) :
    hashset_add_member s v = (0, s) := by
  have hmask_lt := hs.mask_lt_len
  obtain ⟨hcap, hmask, hlen, hbits, hremv, hnodup, hcount, hfound⟩ := hs
  have hmem := hfound v hv hnil
  rw [hashset_is_member] at hmem
  obtain ⟨jj, hjj⟩ :=
    findLoop_to_addLoop hremv hmask_lt _ _ Nat.and_le_left hmem
  rw [hashset_add_member, if_neg (by tauto)]
  rw [hjj]

/-- `hashset_add_member` on a fresh non-sentinel key with a free slot
available: returns `1`, stores the key, increments the count, preserves
the invariant and adds exactly that key to the stored set. -/
theorem hashset_add_member_new {s : Hashset} (hs : Inv s) {v : Nat}
    (hnil : v ≠ nilKey) (hrem : v ≠ remKey) (hv : v ∉ s.items)
    (hroom : s.nitems < s.capacity) :
    ∃ s', hashset_add_member s v = (1, s') ∧ Inv s' ∧
      s'.nitems = s.nitems + 1 ∧
      s'.nbits = s.nbits ∧ s'.capacity = s.capacity ∧ s'.mask = s.mask ∧
      (∀ w, w ≠ nilKey → (w ∈ s'.items ↔ w = v ∨ w ∈ s.items)) := by
  have hmask_lt := hs.mask_lt_len
  obtain ⟨hcap, hmask, hlen, hbits, hremv, hnodup, hcount, hfound⟩ := hs
  have hfree : ∃ j, j < s.items.length ∧ s.items.getD j 0 = nilKey := by
    apply exists_nil_of_liveSlots_lt
    omega
  have htotal : addLoop s.items s.mask v s.capacity
      (s.mask &&& (prime_1 * v)) ≠ none := by
    have hstart : s.mask &&& (prime_1 * v) < 2 ^ s.nbits := by
      have h1 : s.mask &&& (prime_1 * v) ≤ s.mask := Nat.and_le_left
      omega
    rw [hcap]
    exact addLoop_total (by omega) (by omega) hstart hfree
  rcases hres : addLoop s.items s.mask v s.capacity (s.mask &&& (prime_1 * v)) with
    - | ⟨b, jj⟩
  · exact absurd hres htotal
  cases b with
  | true =>
    exfalso
    have hgd := addLoop_found_eq _ _ hres
    have hjle := addLoop_idx_le _ _ Nat.and_le_left hres
    have : v ∈ s.items := by
      rw [← hgd]
      exact getD_mem (by omega) 0
    exact hv this
  | false =>
    have hjle := addLoop_idx_le _ _ Nat.and_le_left hres
    have hjlt : jj < s.items.length := by omega
    have hgd : s.items.getD jj 0 = nilKey := by
      rcases addLoop_free_eq _ _ hres with h1 | h1
      · exact h1
      · exfalso
        apply hremv
        rw [← h1]
        exact getD_mem hjlt 0
    have hperm := liveSlots_set v hnil s.items jj hjlt hgd
    refine ⟨{ s with nitems := s.nitems + 1, items := s.items.set jj v },
      ?_, ?_, rfl, rfl, rfl, rfl, ?_⟩
    · rw [hashset_add_member, if_neg (by tauto), hres]
    · -- the invariant for the updated set
      have hvlive : v ∉ liveSlots s.items := by
        simp only [liveSlots, List.mem_filter]
        intro hcontra
        exact hv hcontra.1
      refine ⟨hcap, hmask, by simpa using hlen, hbits, ?_, ?_, ?_, ?_⟩
      · intro hcontra
        rcases List.mem_or_eq_of_mem_set hcontra with h1 | h1
        · exact hremv h1
        · exact hrem h1.symm
      · rw [hperm.nodup_iff]
        exact List.Nodup.cons hvlive hnodup
      · rw [hperm.length_eq]
        simpa using hcount
      · intro w hw hwnil
        rcases List.mem_or_eq_of_mem_set hw with h1 | h1
        · have hold := hfound w h1 hwnil
          rw [hashset_is_member] at hold ⊢
          exact findLoop_preserve hgd _ _ hold
        · subst h1
          rw [hashset_is_member]
          exact addLoop_insert_found hnil hmask_lt _ _ Nat.and_le_left hres
    · intro w hwnil
      constructor
      · intro hw
        rcases List.mem_or_eq_of_mem_set hw with h1 | h1
        · exact Or.inr h1
        · exact Or.inl h1
      · intro hw
        have hwl : w ∈ v :: liveSlots s.items := by
          rcases hw with h1 | h1
          · subst h1
            exact List.mem_cons_self _ _
          · apply List.mem_cons_of_mem
            simp [liveSlots, List.mem_filter, h1, hwnil]
        have : w ∈ liveSlots (s.items.set jj v) := hperm.mem_iff.mpr hwl
        simp only [liveSlots, List.mem_filter] at this
        exact this.1

/-- Folding `hashset_add_member` over a list of pairwise-distinct fresh
live keys (sentinels allowed in the list: they are rejected and skipped),
with enough room: the workhorse behind `maybe_rehash`'s re-insertion. -/
theorem foldl_add_member_spec :
    ∀ (xs : List Nat) (t : Hashset), Inv t →
      (xs.filter isLiveKey).Nodup →
      (∀ w ∈ xs, isLiveKey w = true → w ∉ t.items) →
      t.nitems + (xs.filter isLiveKey).length < t.capacity →
      ∃ t', xs.foldl (fun acc x => (hashset_add_member acc x).2) t = t' ∧
        Inv t' ∧
        t'.nitems = t.nitems + (xs.filter isLiveKey).length ∧
        t'.nbits = t.nbits ∧ t'.capacity = t.capacity ∧
        (∀ w, w ≠ nilKey →
          (w ∈ t'.items ↔ w ∈ t.items ∨ (w ∈ xs ∧ w ≠ remKey))) := by
  intro xs
  induction xs with
  | nil =>
    intro t ht _ _ _
    exact ⟨t, rfl, ht, by simp, rfl, rfl, by
      intro w hw
      simp⟩
  | cons x rest ih =>
    intro t ht hnodup hfresh hroom
    by_cases hlx : isLiveKey x = true
    · have hxnil := (isLiveKey_iff.mp hlx).1
      have hxrem := (isLiveKey_iff.mp hlx).2
      have hxne : x ∉ t.items := hfresh x (List.mem_cons_self _ _) hlx
      have hfilter : (x :: rest).filter isLiveKey = x :: rest.filter isLiveKey := by
        simp [List.filter_cons, hlx]
      rw [hfilter] at hnodup hroom
      have hroom1 : t.nitems < t.capacity := by
        simp at hroom
        omega
      obtain ⟨t1, heq1, ht1, hn1, hb1, hc1, hm1, hmem1⟩ :=
        hashset_add_member_new ht hxnil hxrem hxne hroom1
      have hstep : (x :: rest).foldl (fun acc y => (hashset_add_member acc y).2) t =
          rest.foldl (fun acc y => (hashset_add_member acc y).2) t1 := by
        simp [List.foldl_cons, heq1]
      obtain ⟨t', heq', ht', hn', hb', hc', hmem'⟩ := ih t1 ht1
        (by exact hnodup.of_cons)
        (by
          intro w hw hlw
          have hwnil := (isLiveKey_iff.mp hlw).1
          rw [hmem1 w hwnil]
          push_neg
          constructor
          · intro hcontra
            subst hcontra
            exact (List.nodup_cons.mp hnodup).1 (List.mem_filter.mpr ⟨hw, hlw⟩)
          · exact hfresh w (List.mem_cons_of_mem _ hw) hlw)
        (by
          rw [hn1, hc1]
          simp at hroom
          omega)
      refine ⟨t', by rw [hstep, heq'], ht', ?_, by omega, by omega, ?_⟩
      · rw [hn', hn1, hfilter]
        simp
        omega
      · intro w hw
        rw [hmem' w hw, hmem1 w hw]
        constructor
        · rintro ((h1 | h1) | h1)
          · exact Or.inr ⟨h1 ▸ List.mem_cons_self _ _, h1 ▸ hxrem⟩
          · exact Or.inl h1
          · exact Or.inr ⟨List.mem_cons_of_mem _ h1.1, h1.2⟩
        · rintro (h1 | ⟨h1, h2⟩)
          · exact Or.inl (Or.inr h1)
          · rcases List.mem_cons.mp h1 with h3 | h3
            · exact Or.inl (Or.inl h3)
            · exact Or.inr ⟨h3, h2⟩
    · -- sentinel: rejected, nothing changes
      have hsent : x = nilKey ∨ x = remKey := by
        rcases (@isLiveKey_iff x).not.mp (by simp [hlx]) with h
        by_cases h1 : x = nilKey
        · exact Or.inl h1
        · right
          by_contra h2
          exact h ⟨h1, h2⟩
      have hfilter : (x :: rest).filter isLiveKey = rest.filter isLiveKey := by
        simp [List.filter_cons, hlx]
      rw [hfilter] at hnodup hroom
      have hstep : (x :: rest).foldl (fun acc y => (hashset_add_member acc y).2) t =
          rest.foldl (fun acc y => (hashset_add_member acc y).2) t := by
        simp [List.foldl_cons, hashset_add_member_sentinel hsent]
      obtain ⟨t', heq', ht', hn', hb', hc', hmem'⟩ := ih t ht hnodup
        (fun w hw hlw => hfresh w (List.mem_cons_of_mem _ hw) hlw) hroom
      refine ⟨t', by rw [hstep, heq'], ht', by rw [hn', hfilter], hb', hc', ?_⟩
      intro w hw
      rw [hmem' w hw]
      constructor
      · rintro (h1 | h1)
        · exact Or.inl h1
        · exact Or.inr ⟨List.mem_cons_of_mem _ h1.1, h1.2⟩
      · rintro (h1 | ⟨h1, h2⟩)
        · exact Or.inl h1
        · rcases List.mem_cons.mp h1 with h3 | h3
          · exfalso
            subst h3
            rcases hsent with h4 | h4
            · exact hw h4
            · exact h2 h4
          · exact Or.inr ⟨h3, h2⟩

theorem liveSlots_eq_filter_isLiveKey {items : List Nat}
    (hrem : remKey ∉ items) : items.filter isLiveKey = liveSlots items := by
  apply List.filter_congr
  intro x hx
  have hxr : x ≠ remKey := fun hcontra => hrem (hcontra ▸ hx)
  simp [isLiveKey, hxr]

/-- `maybe_rehash` never changes the stored keys or their number; it
doubles the capacity exactly when the 85%-threshold is reached. -/
theorem maybe_rehash_spec {s : Hashset} (hs : Inv s) :
    ∃ s', maybe_rehash s = s' ∧ Inv s' ∧ s'.nitems = s.nitems ∧
      (∀ w, w ≠ nilKey → (w ∈ s'.items ↔ w ∈ s.items)) ∧
      s'.capacity =
        (if rehashThreshold s.capacity ≤ s.nitems then 2 * s.capacity
         else s.capacity) := by
  by_cases hcond : rehashThreshold s.capacity ≤ s.nitems
  · obtain ⟨hcap, hmask, hlen, hbits, hremv, hnodup, hcount, hfound⟩ := hs
    set fresh : Hashset :=
      { nbits := s.nbits + 1
        capacity := 2 ^ (s.nbits + 1)
        mask := 2 ^ (s.nbits + 1) - 1
        items := List.replicate (2 ^ (s.nbits + 1)) nilKey
        nitems := 0 } with hfresh
    have hfinv : Inv fresh := by
      refine ⟨rfl, rfl, by simp [hfresh], by show 3 ≤ s.nbits + 1; omega, ?_, ?_, ?_, ?_⟩
      · intro h
        have := List.eq_of_mem_replicate h
        simp [remKey, nilKey] at this
      · have : liveSlots (List.replicate (2 ^ (s.nbits + 1)) nilKey) = [] := by
          simp [liveSlots, List.filter_replicate]
        simp [hfresh, this]
      · have : liveSlots (List.replicate (2 ^ (s.nbits + 1)) nilKey) = [] := by
          simp [liveSlots, List.filter_replicate]
        simp [hfresh, this]
      · intro v hv hnil
        have := List.eq_of_mem_replicate hv
        exact absurd this hnil
    have hfill : s.items.filter isLiveKey = liveSlots s.items :=
      liveSlots_eq_filter_isLiveKey hremv
    have hlive_len : (s.items.filter isLiveKey).length < fresh.capacity := by
      rw [hfill]
      have h1 : (liveSlots s.items).length ≤ s.items.length :=
        List.length_filter_le _ _
      have h2 : (0 : Nat) < 2 ^ s.nbits := Nat.pos_pow_of_pos _ (by omega)
      have h3 : fresh.capacity = 2 ^ (s.nbits + 1) := rfl
      rw [h3, pow_succ]
      omega
    obtain ⟨t', heq', ht', hn', hb', hc', hmem'⟩ :=
      foldl_add_member_spec s.items fresh hfinv
        (by rw [hfill]; exact hnodup)
        (by
          intro w hw hlw
          intro hcontra
          have := List.eq_of_mem_replicate hcontra
          exact (isLiveKey_iff.mp hlw).1 this)
        (by simpa using hlive_len)
    refine ⟨t', ?_, ht', ?_, ?_, ?_⟩
    · rw [maybe_rehash, if_pos hcond]
      exact heq'
    · rw [hn', hfill, ← hcount]
      simp [hfresh]
    · intro w hw
      rw [hmem' w hw]
      constructor
      · rintro (h1 | h1)
        · exfalso
          have := List.eq_of_mem_replicate h1
          exact hw this
        · exact h1.1
      · intro h1
        refine Or.inr ⟨h1, fun hcontra => hremv (hcontra ▸ h1)⟩
    · rw [if_pos hcond, hc']
      have : fresh.capacity = 2 ^ (s.nbits + 1) := rfl
      rw [this, hcap, pow_succ]
      ring
  · exact ⟨s, by rw [maybe_rehash, if_neg hcond], hs, rfl, fun w hw => Iff.rfl,
      by rw [if_neg hcond]⟩


theorem rehashThreshold_lt {c : Nat} (hc : 0 < c) : rehashThreshold c < c := by
  rw [rehashThreshold]
  omega

theorem rehashThreshold_double {c : Nat} (hc : 8 ≤ c) :
    rehashThreshold c + 1 ≤ rehashThreshold (2 * c) := by
  have h6 : 6 ≤ rehashThreshold c := by
    have : rehashThreshold 8 = 6 := by norm_num [rehashThreshold]
    calc 6 = rehashThreshold 8 := this.symm
      _ ≤ rehashThreshold c := by
          rw [rehashThreshold, rehashThreshold]
          exact Nat.div_le_div_right (by omega)
  have hdouble : 2 * rehashThreshold c ≤ rehashThreshold (2 * c) := by
    rw [rehashThreshold, rehashThreshold]
    rw [Nat.le_div_iff_mul_le (by omega)]
    have := Nat.div_mul_le_self (85 * c) 100
    omega
  omega

/-- Full specification of one public insert
(`hashset_add_member` + `maybe_rehash`) from a reachable state. -/
theorem hashset_add_spec {s : Hashset} (hs : PubInv s) (v : Nat) :
    ∃ s', (hashset_add s v).2 = s' ∧ PubInv s' ∧
      (∀ w, w ≠ nilKey →
        (w ∈ s'.items ↔ (w = v ∧ isLiveKey v = true) ∨ w ∈ s.items)) ∧
      s'.nitems = s.nitems +
        (if isLiveKey v = true ∧ v ∉ s.items then 1 else 0) ∧
      s'.capacity =
        (if rehashThreshold s.capacity ≤ s.nitems +
            (if isLiveKey v = true ∧ v ∉ s.items then 1 else 0)
         then 2 * s.capacity else s.capacity) := by
  obtain ⟨hinv, hth⟩ := hs
  have hcap_pos : 0 < s.capacity := by
    obtain ⟨hcap, -, -, hbits, -⟩ := hinv
    rw [hcap]
    exact Nat.pos_pow_of_pos _ (by omega)
  by_cases hlv : isLiveKey v = true
  · have hvnil := (isLiveKey_iff.mp hlv).1
    have hvrem := (isLiveKey_iff.mp hlv).2
    by_cases hvin : v ∈ s.items
    · -- duplicate key: member-add is a no-op, threshold not reached
      have hmem := hashset_add_member_mem hinv hvnil hvrem hvin
      have hcond : ¬ rehashThreshold s.capacity ≤ s.nitems := by omega
      refine ⟨s, ?_, ⟨hinv, hth⟩, ?_, ?_, ?_⟩
      · rw [hashset_add, hmem]
        simp only
        rw [maybe_rehash, if_neg hcond]
      · intro w hw
        constructor
        · intro h1
          exact Or.inr h1
        · rintro (⟨h1, -⟩ | h1)
          · exact h1 ▸ hvin
          · exact h1
      · simp [hlv, hvin]
      · rw [if_neg (by simpa [hlv, hvin] using hcond)]
    · -- fresh key: insert, then possibly grow
      have hroom : s.nitems < s.capacity := by
        have := rehashThreshold_lt hcap_pos
        omega
      obtain ⟨s1, heq1, hinv1, hn1, hb1, hc1, hm1, hmem1⟩ :=
        hashset_add_member_new hinv hvnil hvrem hvin hroom
      obtain ⟨s', heq', hinv', hn', hmem', hc'⟩ := maybe_rehash_spec hinv1
      have hfinal : (hashset_add s v).2 = s' := by
        rw [hashset_add, heq1]
        simpa using heq'
      have hnits : s'.nitems = s.nitems + 1 := by rw [hn', hn1]
      have hcaps : s'.capacity =
          (if rehashThreshold s.capacity ≤ s.nitems + 1 then 2 * s.capacity
           else s.capacity) := by
        rw [hc', hc1, hn1]
      refine ⟨s', hfinal, ⟨hinv', ?_⟩, ?_, by simp [hlv, hvin, hnits], ?_⟩
      · by_cases hgrow : rehashThreshold s.capacity ≤ s.nitems + 1
        · rw [hnits, hcaps, if_pos hgrow]
          have h8 : 8 ≤ s.capacity := by
            obtain ⟨hcap, -, -, hbits, -⟩ := hinv
            rw [hcap]
            calc (8 : Nat) = 2 ^ 3 := by norm_num
              _ ≤ 2 ^ s.nbits := Nat.pow_le_pow_right (by omega) hbits
          have := rehashThreshold_double h8
          omega
        · rw [hnits, hcaps, if_neg hgrow]
          omega
      · intro w hw
        rw [hmem' w hw, hmem1 w hw]
        constructor
        · rintro (h1 | h1)
          · exact Or.inl ⟨h1, hlv⟩
          · exact Or.inr h1
        · rintro (⟨h1, -⟩ | h1)
          · exact Or.inl h1
          · exact Or.inr h1
      · rw [hcaps]
        simp [hlv, hvin]
  · -- sentinel key: rejected, nothing changes
    have hsent : v = nilKey ∨ v = remKey := by
      by_cases h1 : v = nilKey
      · exact Or.inl h1
      · right
        by_contra h2
        exact hlv (isLiveKey_iff.mpr ⟨h1, h2⟩)
    have hcond : ¬ rehashThreshold s.capacity ≤ s.nitems := by omega
    refine ⟨s, ?_, ⟨hinv, hth⟩, ?_, by simp [hlv], ?_⟩
    · rw [hashset_add, hashset_add_member_sentinel hsent]
      simp only
      rw [maybe_rehash, if_neg hcond]
    · intro w hw
      constructor
      · intro h1
        exact Or.inr h1
      · rintro (⟨-, h1⟩ | h1)
        · exact absurd h1 (by simp [hlv])
        · exact h1
    · rw [if_neg (by simpa [hlv] using hcond)]

/-- Folding the public insert over any key list from any reachable state. -/
theorem insertList_spec :
    ∀ (ks : List Nat) (s : Hashset), PubInv s →
      ∃ s', ks.foldl (fun a k => (hashset_add a k).2) s = s' ∧ PubInv s' ∧
        (∀ w, w ≠ nilKey →
          (w ∈ s'.items ↔ w ∈ s.items ∨ (w ∈ ks ∧ w ≠ remKey))) := by
  intro ks
  induction ks with
  | nil =>
    intro s hs
    exact ⟨s, rfl, hs, by intro w hw; simp⟩
  | cons k rest ih =>
    intro s hs
    obtain ⟨s1, heq1, hs1, hmem1, -, -⟩ := hashset_add_spec hs k
    obtain ⟨s', heq', hs', hmem'⟩ := ih s1 hs1
    refine ⟨s', by rw [List.foldl_cons, heq1, heq'], hs', ?_⟩
    intro w hw
    rw [hmem' w hw, hmem1 w hw]
    constructor
    · rintro ((⟨h1, h2⟩ | h1) | h1)
      · subst h1
        exact Or.inr ⟨List.mem_cons_self _ _, (isLiveKey_iff.mp h2).2⟩
      · exact Or.inl h1
      · exact Or.inr ⟨List.mem_cons_of_mem _ h1.1, h1.2⟩
    · rintro (h1 | ⟨h1, h2⟩)
      · exact Or.inl (Or.inr h1)
      · rcases List.mem_cons.mp h1 with h3 | h3
        · subst h3
          exact Or.inl (Or.inl ⟨rfl, isLiveKey_iff.mpr ⟨hw, h2⟩⟩)
        · exact Or.inr ⟨h3, h2⟩

theorem PubInv_create : PubInv hashset_create :=
  ⟨Inv_create, by decide⟩

/-- After inserting a key list into a fresh set, the stored keys are
exactly the non-sentinel keys of the list. -/
theorem insertKeys_spec (ks : List Nat) :
    ∃ s', insertKeys ks = s' ∧ PubInv s' ∧
      (∀ w, w ≠ nilKey → (w ∈ s'.items ↔ w ∈ ks ∧ w ≠ remKey)) := by
  obtain ⟨s', heq, hs', hmem⟩ := insertList_spec ks hashset_create PubInv_create
  refine ⟨s', heq, hs', ?_⟩
  intro w hw
  rw [hmem w hw]
  constructor
  · rintro (h1 | h1)
    · exfalso
      have := List.eq_of_mem_replicate h1
      exact hw this
    · exact h1
  · exact Or.inr

/-- The item count after inserting a key list into a fresh set is the
number of distinct non-sentinel keys in the list. -/
theorem insertKeys_nitems (ks : List Nat) :
    (insertKeys ks).nitems = ((ks.filter isLiveKey).dedup).length := by
  obtain ⟨s', heq, ⟨hinv, -⟩, hmem⟩ := insertKeys_spec ks
  obtain ⟨hcap, hmask, hlen, hbits, hremv, hnodup, hcount, -⟩ := hinv
  rw [heq, hcount]
  have hmemL : ∀ w, w ∈ liveSlots s'.items ↔ w ∈ (ks.filter isLiveKey).dedup := by
    intro w
    simp only [liveSlots, List.mem_filter, List.mem_dedup, decide_eq_true_eq, ne_eq]
    constructor
    · rintro ⟨h1, h2⟩
      have h3 := (hmem w h2).mp h1
      exact ⟨h3.1, isLiveKey_iff.mpr ⟨h2, h3.2⟩⟩
    · rintro ⟨h1, h2⟩
      have hl := isLiveKey_iff.mp h2
      exact ⟨(hmem w hl.1).mpr ⟨h1, hl.2⟩, hl.1⟩
  have hfin : (liveSlots s'.items).toFinset = ((ks.filter isLiveKey).dedup).toFinset := by
    ext w
    simp only [List.mem_toFinset]
    exact hmemL w
  calc (liveSlots s'.items).length
      = (liveSlots s'.items).toFinset.card := (List.toFinset_card_of_nodup hnodup).symm
    _ = ((ks.filter isLiveKey).dedup).toFinset.card := by rw [hfin]
    _ = ((ks.filter isLiveKey).dedup).length :=
        List.toFinset_card_of_nodup (List.nodup_dedup _)

/-- Membership test after an insert-only run from a fresh set: found iff
the key was inserted and is not a sentinel. -/
theorem insertKeys_is_member (ks : List Nat) (v : Nat) :
    hashset_is_member (insertKeys ks) v = true ↔
      v ∈ ks ∧ v ≠ nilKey ∧ v ≠ remKey := by
  obtain ⟨s', heq, ⟨hinv, -⟩, hmem⟩ := insertKeys_spec ks
  rw [heq]
  constructor
  · intro h
    have hmask_lt := hinv.mask_lt_len
    rw [hashset_is_member] at h
    obtain ⟨hin, hnil⟩ := findLoop_sound hmask_lt _ _ Nat.and_le_left h
    have h2 := (hmem v hnil).mp hin
    exact ⟨h2.1, hnil, h2.2⟩
  · rintro ⟨h1, h2, h3⟩
    obtain ⟨-, -, -, -, -, -, -, hfound⟩ := hinv
    exact hfound v ((hmem v h2).mpr ⟨h1, h3⟩) h2

/-! ## Claims C6, C7, C10 — the distinct-value hash set -/

/-- **C6, counterexample.**  The claim says the set "never grows while the
ratio of live entries to capacity is strictly below 0.85".  But after the
sixth insertion the code compares against `(size_t)(8 * 0.85) = 6` and
grows (to capacity 16) although `6/8 = 0.75 < 0.85`. -/
theorem C6_growth_counterexample :
    (insertKeys [1, 2, 3, 4, 5, 6]).nitems = 6 ∧
    (insertKeys [1, 2, 3, 4, 5, 6]).capacity = 16 ∧
    ((6 : ℚ) / 8 < 85 / 100) := by
  refine ⟨by decide, by decide, by norm_num⟩

/-- **C6, amended.**  The set is created with capacity 8; an insertion
grows the set by doubling its capacity (rehashing all live entries into
the fresh slots, preserving the stored keys) exactly when the live count
after the insertion reaches `⌊0.85 · capacity⌋` — the C code truncates
`capacity * 0.85` to an integer, so growth can already happen at a load
ratio strictly below 0.85 (at 6 of 8 slots, ratio 0.75). -/
theorem C6_amended_growth (s : Hashset) (v : Nat) (hs : PubInv s) :
    hashset_create.capacity = 8 ∧
    ∃ s', (hashset_add s v).2 = s' ∧
      s'.capacity =
        (if rehashThreshold s.capacity ≤ s'.nitems then 2 * s.capacity
         else s.capacity) ∧
      (∀ w, w ≠ nilKey →
        (w ∈ s'.items ↔ (w = v ∧ isLiveKey v = true) ∨ w ∈ s.items)) := by
  obtain ⟨s', heq, hs', hmem, hn, hc⟩ := hashset_add_spec hs v
  exact ⟨rfl, s', heq, by rw [hc, hn], hmem⟩

/-- Witness for `C6_amended_growth` at a concrete reachable state: the
sixth insertion doubles the capacity. -/
theorem C6_amended_growth_witness :
    PubInv (insertKeys [1, 2, 3, 4, 5]) ∧
    ∃ s', (hashset_add (insertKeys [1, 2, 3, 4, 5]) 6).2 = s' ∧
      s'.capacity =
        (if rehashThreshold (insertKeys [1, 2, 3, 4, 5]).capacity ≤ s'.nitems
         then 2 * (insertKeys [1, 2, 3, 4, 5]).capacity
         else (insertKeys [1, 2, 3, 4, 5]).capacity) ∧
      (∀ w, w ≠ nilKey →
        (w ∈ s'.items ↔ (w = 6 ∧ isLiveKey 6 = true) ∨
          w ∈ (insertKeys [1, 2, 3, 4, 5]).items)) :=
  ⟨by decide, (C6_amended_growth (insertKeys [1, 2, 3, 4, 5]) 6 (by decide)).2⟩

/-- **C7.**  Inserting pairwise-distinct non-sentinel 64-bit keys into a
fresh set and then testing membership: `true` for every inserted key,
`false` for every key never inserted — also across rehash events, which
the proof (`maybe_rehash_spec`) shows preserve the stored keys. -/
theorem C7_membership_roundtrip (ks : List Nat) (_hnd : ks.Nodup)
    (hks : ∀ k ∈ ks, k < 2 ^ 64 ∧ k ≠ nilKey ∧ k ≠ remKey) :
    (∀ k ∈ ks, hashset_is_member (insertKeys ks) k = true) ∧
    (∀ k, k ∉ ks → hashset_is_member (insertKeys ks) k = false) := by
  constructor
  · intro k hk
    exact (insertKeys_is_member ks k).mpr ⟨hk, (hks k hk).2.1, (hks k hk).2.2⟩
  · intro k hk
    by_contra hcontra
    have htrue : hashset_is_member (insertKeys ks) k = true := by
      revert hcontra
      cases hashset_is_member (insertKeys ks) k <;> simp
    exact hk ((insertKeys_is_member ks k).mp htrue).1

/-- Witness for `C7_membership_roundtrip`: seven keys (so the 8-slot set
has grown to 16 slots, i.e. a rehash occurred), all found, an absent key
not found. -/
theorem C7_membership_roundtrip_witness :
    ([1, 2, 3, 4, 5, 6, 7] : List Nat).Nodup ∧
    (∀ k ∈ ([1, 2, 3, 4, 5, 6, 7] : List Nat),
      hashset_is_member (insertKeys [1, 2, 3, 4, 5, 6, 7]) k = true) ∧
    hashset_is_member (insertKeys [1, 2, 3, 4, 5, 6, 7]) 99 = false ∧
    (insertKeys [1, 2, 3, 4, 5, 6, 7]).capacity = 16 :=
  ⟨by decide,
   (C7_membership_roundtrip [1, 2, 3, 4, 5, 6, 7] (by decide) (by decide)).1,
   (C7_membership_roundtrip [1, 2, 3, 4, 5, 6, 7] (by decide) (by decide)).2
     99 (by decide),
   by decide⟩

/-- **C10.**  Re-inserting a key that is already a member returns `0` and
leaves the set (slots and item count) unchanged; consequently, after any
insert-only run from a fresh set, the item count equals the number of
distinct non-sentinel keys that were inserted, however often repeated. -/
theorem C10_duplicate_inserts (ks : List Nat) (v : Nat)
    (hnil : v ≠ nilKey) (hrem : v ≠ remKey)
    (hv : hashset_is_member (insertKeys ks) v = true) :
    hashset_add_member (insertKeys ks) v = (0, insertKeys ks) ∧
    hashset_num_items (insertKeys ks) = ((ks.filter isLiveKey).dedup).length := by
  obtain ⟨s', heq, ⟨hinv, -⟩, hmem⟩ := insertKeys_spec ks
  constructor
  · have hin : v ∈ (insertKeys ks).items := by
      rw [heq]
      exact (hmem v hnil).mpr ⟨((insertKeys_is_member ks v).mp hv).1, hrem⟩
    exact hashset_add_member_mem (heq ▸ hinv) hnil hrem hin
  · exact insertKeys_nitems ks

/-- Witness for `C10_duplicate_inserts`: re-inserting `3` into the set
built from `[1, 2, 3, 2, 3, 1]` is a no-op and the count is `3`. -/
theorem C10_duplicate_inserts_witness :
    hashset_add_member (insertKeys [1, 2, 3, 2, 3, 1]) 3 =
      (0, insertKeys [1, 2, 3, 2, 3, 1]) ∧
    hashset_num_items (insertKeys [1, 2, 3, 2, 3, 1]) =
      ((([1, 2, 3, 2, 3, 1] : List Nat).filter isLiveKey).dedup).length :=
  C10_duplicate_inserts [1, 2, 3, 2, 3, 1] 3 (by decide) (by decide) (by decide)


/-! ## Claims C2, C4 — pointer-comparison bugs in the per-row engine -/

/-- **C2** (code evaluation at the claim's first input).  The claim says
that for A = {1,1,2,2,3}, B = {x,x,y,y,z} the dependency A→B is reported.
The code compares the stored dependent `char*` with the current row's
`char*` by address; the snapshot strings are freshly allocated every row,
so the second row (A repeats 1, B spells "x" again at a fresh address)
falsifies the pair and nothing is reported.  The claim's second input
(A = {1,1,2}, B = {x,y,y}) is also not reported, as the claim states. -/
theorem C2_fd_scenarios_eval :
    printFunctionalDependencies (runRows pbAB fdRowsFunctional) = [] ∧
    printFunctionalDependencies (runRows pbAB fdRowsViolating) = [] := by
  decide

/-- **C4** (code evaluation at a failing input).  The column `c4Column`
carries a pre-set final bound cell holding 7 (finality cleared by an
invalidation); the temporary minimum holds 10.  Observing the value 7
replaces the temporary minimum (7 < 10) and the updated temporary bound
equals the pre-set bound's value, so by the claim `minValueIsFinal` must
become true — but the code compares the freshly `malloc`ed cell with the
stored cell by address, which never matches, and the flag stays false. -/
theorem C4_min_promotion_never_fires :
    (observeColumn 1 50 c4Column hashset_create (CPtr.litNull, "")
      (.vint 7)).col.minValueTemp.val = 7 ∧
    c4Column.minValue = some ⟨5, 7⟩ ∧
    (observeColumn 1 50 c4Column hashset_create (CPtr.litNull, "")
      (.vint 7)).col.minValueIsFinal = false := by
  decide

/-! ## Claim C1 — distinct counts -/

/-- **C1, counterexample.**  A varchar column realizing the two distinct
values `"b!"` and `"aB"` (no shortcut, no finality flag ever set) is
reported with distinct count 1, not 2: the tracker stores djb2 hashes and
`hash("b!") = hash("aB")`. -/
theorem C1_distinct_collision_counterexample :
    (printSingleColumnStatistics
      (runRows pbC [[.vstr "b!"], [.vstr "aB"]])).1 =
      [{ name := "C", index := 0, distinctCount := 1, minValue := INT_MAX,
         maxValue := INT_MIN, isNumeric := 0 }] ∧
    ("b!" : String) ≠ "aB" ∧ hashStr "b!" = hashStr "aB" := by
  decide

/-! ## Claim C3 — FD emission -/

/-- **C3, counterexample.**  Two result columns of unrecognized type over
two rows: every row snapshots both columns as the same `""` literal, so
both pair maps survive with exactly one stored key, while both columns'
resolved distinct counts are 0 (nothing was ever inserted into their
trackers).  Both pairs are nevertheless emitted as functional
dependencies: emission never compares the map's key count with the
determinant's distinct count. -/
theorem C3_emission_counterexample :
    printFunctionalDependencies (runRows pbAB otherRows) =
      [("A", "B"), ("B", "A")] ∧
    ((runRows pbAB otherRows).twoColumnsCombinations.getD
      (pairIndex 2 0 1) none).map hashmapCount = some 1 ∧
    (printSingleColumnStatistics (runRows pbAB otherRows)).1.map
      (fun r => r.distinctCount) = [0, 0] := by
  decide

/-- **C3, amended.**  After the row stream, an ordered pair `(i, j)` is
emitted as a functional dependency iff its map still exists (and at least
one tuple was seen); the map's key count is never compared with column
`i`'s distinct count. -/
theorem C3_amended_emission (pb : Pb) (i j : Nat)
    (htup : 0 < pb.numberOfTuples) :
    ((i, j) ∈ fdSurvivingPairs pb ↔
      i < pb.numberOfAttributes ∧ j < pb.numberOfAttributes ∧ i ≠ j ∧
      (pb.twoColumnsCombinations.getD
        (pairIndex pb.numberOfAttributes i j) none).isSome = true) ∧
    printFunctionalDependencies pb = (fdSurvivingPairs pb).map (fun p =>
      ((pb.cols.getD p.1 default).columnDescriptor.rescolumnname,
       (pb.cols.getD p.2 default).columnDescriptor.rescolumnname)) := by
  constructor
  · simp only [fdSurvivingPairs, List.mem_flatMap, List.mem_filterMap,
      List.mem_range]
    constructor
    · rintro ⟨a, ha, b, hb, hab⟩
      by_cases hne : a = b
      · simp [hne] at hab
      · rw [if_neg hne] at hab
        by_cases hsome : (pb.twoColumnsCombinations.getD
            (pairIndex pb.numberOfAttributes a b) none).isSome = true
        · rw [if_pos hsome] at hab
          have h2 : (a, b) = (i, j) := Option.some.inj hab
          have ha2 : a = i := congrArg Prod.fst h2
          have hb2 : b = j := congrArg Prod.snd h2
          subst ha2
          subst hb2
          exact ⟨ha, hb, hne, hsome⟩
        · rw [if_neg hsome] at hab
          cases hab
    · rintro ⟨hi, hj, hne, hsome⟩
      refine ⟨i, hi, j, hj, ?_⟩
      rw [if_neg hne, if_pos hsome]
  · rw [printFunctionalDependencies, if_neg (by omega)]

/-- Witness for `C3_amended_emission` at the concrete two-column run of
`otherRows`: the pair `(0, 1)` is emitted and its map is present. -/
theorem C3_amended_emission_witness :
    0 < (runRows pbAB otherRows).numberOfTuples ∧
    ((0, 1) ∈ fdSurvivingPairs (runRows pbAB otherRows) ↔
      0 < (runRows pbAB otherRows).numberOfAttributes ∧
      1 < (runRows pbAB otherRows).numberOfAttributes ∧ (0 : Nat) ≠ 1 ∧
      ((runRows pbAB otherRows).twoColumnsCombinations.getD
        (pairIndex (runRows pbAB otherRows).numberOfAttributes 0 1)
        none).isSome = true) :=
  ⟨by decide, (C3_amended_emission (runRows pbAB otherRows) 0 1 (by decide)).1⟩

/-! ## Claim C8 — NULL handling -/

/-- **C8, counterexample.**  Two rows whose first column is NULL and whose
second column is the string "x" (freshly allocated each row): after the
first row the pair (0, 1) map exists; the second row — first column again
NULL — falsifies and discards it (the NULL was snapshotted as `""`, its
hash found the stored entry, and the stored `char*` differs from the
current row's fresh `char*`).  So a NULL value does falsify an FD
candidate pair involving its column, contrary to the claim. -/
theorem C8_null_falsifies_counterexample :
    ((runRows pbAB [[.vnull, .vstr "x"]]).twoColumnsCombinations.getD
      (pairIndex 2 0 1) none).isSome = true ∧
    (runRows pbAB nullRows).twoColumnsCombinations.getD
      (pairIndex 2 0 1) none = none := by
  decide

/-- **C8, amended.**  A NULL value is skipped by the statistics: it is not
inserted into the column's distinct tracker and leaves the whole column
statistic (bounds, flags) unchanged; but the row snapshot records it as
the empty-string literal, against which the FD maps are then evaluated —
so FD candidate pairs involving the column can still be falsified on that
row (shown by `C8_null_falsifies_counterexample`). -/
theorem C8_null_skips_statistics (bugWord alloc : Nat) (c : ColumnStatistic)
    (h : Hashset) (slotOld : CPtr × String) :
    (observeColumn bugWord alloc c h slotOld .vnull).col = c ∧
    (observeColumn bugWord alloc c h slotOld .vnull).hs = h ∧
    (¬ (c.minValueIsFinal ∧ c.maxValueIsFinal ∧ c.n_distinctIsFinal) →
      (observeColumn bugWord alloc c h slotOld .vnull).slot =
        (CPtr.litNull, "")) := by
  rw [observeColumn]
  by_cases hc : c.minValueIsFinal ∧ c.maxValueIsFinal ∧ c.n_distinctIsFinal
  · rw [if_pos hc]
    exact ⟨rfl, rfl, fun hcontra => absurd hc hcontra⟩
  · rw [if_neg hc]
    exact ⟨rfl, rfl, fun _ => rfl⟩

/-- Witness for `C8_null_skips_statistics` at a concrete non-final
column. -/
theorem C8_null_skips_statistics_witness :
    (observeColumn 1 50 c4Column hashset_create (CPtr.litNull, "")
      .vnull).col = c4Column ∧
    (observeColumn 1 50 c4Column hashset_create (CPtr.litNull, "")
      .vnull).hs = hashset_create ∧
    (¬ (c4Column.minValueIsFinal ∧ c4Column.maxValueIsFinal ∧
        c4Column.n_distinctIsFinal) →
      (observeColumn 1 50 c4Column hashset_create (CPtr.litNull, "")
        .vnull).slot = (CPtr.litNull, "")) :=
  C8_null_skips_statistics 1 50 c4Column hashset_create (CPtr.litNull, "")

/-! ## Claim C5 — the equality shortcut -/

/-- A column with all three finality flags set is skipped entirely by the
per-row observer. -/
theorem observeColumn_skip (bugWord alloc : Nat) (c : ColumnStatistic)
    (h : Hashset) (slot : CPtr × String) (d : ColValue)
    (h1 : c.minValueIsFinal = true) (h2 : c.maxValueIsFinal = true)
    (h3 : c.n_distinctIsFinal = true) :
    observeColumn bugWord alloc c h slot d = ⟨c, h, slot, alloc⟩ := by
  rw [observeColumn.eq_def, if_pos ⟨h1, h2, h3⟩]

/-- **C5.**  When the first filter term is an equality with a constant `v`
(recognized operator oid) and the referenced column resolves to a result
position inside the result width, that column's statistics are set — with
no row consulted — to `n_distinct = 1`, `minValue = maxValue =` (the cell
holding) `v`, all finality flags true, and the per-row observer never
again touches the column's statistic or tracker; when the position is
outside the result width the shortcut itself has no effect (only the
unconditional table invalidation that precedes the dispatch happens). -/
theorem C5_equality_shortcut (pb : Pb) (tableOid : Int) (q : QualTerm)
    (rest : List QualTerm) (hlen : pb.cols.length = pb.numberOfAttributes)
    (hop : equalityOpnos.contains q.opno = true) :
    (findColumnIndex pb tableOid q.columnId < pb.numberOfAttributes →
      ∃ c', (LookForFilterWithEquality pb tableOid (q :: rest)).cols.getD
          (findColumnIndex pb tableOid q.columnId) default = c' ∧
        c'.n_distinct = 1 ∧
        c'.minValue = some q.constCell ∧ c'.maxValue = some q.constCell ∧
        c'.n_distinctIsFinal = true ∧ c'.minValueIsFinal = true ∧
        c'.maxValueIsFinal = true ∧
        (∀ bugWord alloc h slot d,
          observeColumn bugWord alloc c' h slot d = ⟨c', h, slot, alloc⟩)) ∧
    (pb.numberOfAttributes ≤ findColumnIndex pb tableOid q.columnId →
      LookForFilterWithEquality pb tableOid (q :: rest) =
        InvalidateStatisticsForTable pb tableOid) := by
  have hunfold : LookForFilterWithEquality pb tableOid (q :: rest) =
      SetStatisticValuesForEqual (InvalidateStatisticsForTable pb tableOid)
        q.constCell (findColumnIndex pb tableOid q.columnId)
        { rescolumnname := "", srctableid := -1, srccolumnid := q.columnId,
          rescolumnid := -1, typid := 20 } := by
    rw [LookForFilterWithEquality]
    simp only [hop, if_true]
  have hna : (InvalidateStatisticsForTable pb tableOid).numberOfAttributes =
      pb.numberOfAttributes := rfl
  have hcl : (InvalidateStatisticsForTable pb tableOid).cols.length =
      pb.cols.length := by
    simp [InvalidateStatisticsForTable]
  constructor
  · intro hlt
    rw [hunfold, SetStatisticValuesForEqual]
    rw [if_pos (by exact hlt)]
    refine ⟨_, getD_set_self (by omega) _ _, rfl, rfl, rfl, rfl, rfl, rfl, ?_⟩
    intro bugWord alloc h slot d
    exact observeColumn_skip bugWord alloc _ h slot d rfl rfl rfl
  · intro hge
    rw [hunfold, SetStatisticValuesForEqual, if_neg (by rw [hna]; omega)]

/-- Witness for `C5_equality_shortcut`: the filter `A = 5` on the
two-column result over table 100 resolves to position 0 and finalizes
that column. -/
theorem C5_equality_shortcut_witness :
    findColumnIndex pbAB 100 qualEq.columnId < pbAB.numberOfAttributes ∧
    (∃ c', (LookForFilterWithEquality pbAB 100 [qualEq]).cols.getD
        (findColumnIndex pbAB 100 qualEq.columnId) default = c' ∧
      c'.n_distinct = 1 ∧
      c'.minValue = some qualEq.constCell ∧
      c'.maxValue = some qualEq.constCell ∧
      c'.n_distinctIsFinal = true ∧ c'.minValueIsFinal = true ∧
      c'.maxValueIsFinal = true ∧
      (∀ bugWord alloc h slot d,
        observeColumn bugWord alloc c' h slot d = ⟨c', h, slot, alloc⟩)) :=
  ⟨by decide,
   (C5_equality_shortcut pbAB 100 qualEq [] (by decide) (by decide)).1
     (by decide)⟩

/-! ## Claim C9 — invalidation -/

/-- Folding `InvalidateStatisticsForTable` over a list of oids clears the
flags of exactly the columns whose source table occurs in the list. -/
theorem invalidate_foldl_cols :
    ∀ (ts : List Int) (pb : Pb),
      (ts.foldl InvalidateStatisticsForTable pb).cols =
        pb.cols.map (fun c =>
          if c.columnDescriptor.srctableid ∈ ts then clearFinalFlags c
          else c) := by
  intro ts
  induction ts with
  | nil =>
    intro pb
    simp
  | cons t ts ih =>
    intro pb
    rw [List.foldl_cons, ih]
    simp only [InvalidateStatisticsForTable, List.map_map]
    congr 1
    funext c
    simp only [Function.comp_apply, List.mem_cons]
    by_cases h1 : t = c.columnDescriptor.srctableid
    · rw [if_pos h1]
      by_cases h2 : c.columnDescriptor.srctableid ∈ ts
      · rw [if_pos (show (clearFinalFlags c).columnDescriptor.srctableid ∈ ts
            from h2), if_pos (Or.inl h1.symm)]
        rfl
      · rw [if_neg (show ¬ (clearFinalFlags c).columnDescriptor.srctableid ∈ ts
            from h2), if_pos (Or.inl h1.symm)]
    · rw [if_neg h1]
      by_cases h2 : c.columnDescriptor.srctableid ∈ ts
      · rw [if_pos h2, if_pos (Or.inr h2)]
      · rw [if_neg h2, if_neg (by
          rintro (h3 | h3)
          · exact h1 h3.symm
          · exact h2 h3)]

/-- **C9.**  `InvalidateStatisticsForTables(old)` clears the finality
flags of exactly the columns whose descriptor's source table id is
currently tracked but absent (by value) from the `old` snapshot list —
those columns get precisely their four finality flags zeroed
(`clearFinalFlags`) — and leaves every field of every other column
unchanged. -/
theorem C9_invalidation (pb : Pb) (old : List Int) (i : Nat)
    (hi : i < pb.cols.length) :
    (InvalidateStatisticsForTables pb old).cols.length = pb.cols.length ∧
    ((pb.cols.getD i default).columnDescriptor.srctableid ∈ pb.tableOids ∧
      (pb.cols.getD i default).columnDescriptor.srctableid ∉ old →
      (InvalidateStatisticsForTables pb old).cols.getD i default =
        clearFinalFlags (pb.cols.getD i default)) ∧
    (¬ ((pb.cols.getD i default).columnDescriptor.srctableid ∈ pb.tableOids ∧
        (pb.cols.getD i default).columnDescriptor.srctableid ∉ old) →
      (InvalidateStatisticsForTables pb old).cols.getD i default =
        pb.cols.getD i default) := by
  have hmem : ∀ x : Int,
      (x ∈ pb.tableOids.filter (fun oid => ¬ old.contains oid)) ↔
        (x ∈ pb.tableOids ∧ x ∉ old) := by
    intro x
    simp only [List.mem_filter, decide_eq_true_eq]
    constructor
    · rintro ⟨h1, h2⟩
      refine ⟨h1, fun hcontra => ?_⟩
      simp only [List.elem_iff] at h2
      exact h2 hcontra
    · rintro ⟨h1, h2⟩
      refine ⟨h1, ?_⟩
      simp only [List.elem_iff]
      exact h2
  have hcols := invalidate_foldl_cols
    (pb.tableOids.filter (fun oid => ¬ old.contains oid)) pb
  rw [InvalidateStatisticsForTables, hcols]
  refine ⟨by simp, ?_, ?_⟩
  · intro hcond
    rw [getD_map _ hi default default]
    rw [if_pos ((hmem _).mpr hcond)]
  · intro hcond
    rw [getD_map _ hi default default]
    rw [if_neg (fun hcontra => hcond ((hmem _).mp hcontra))]

/-- Witness for `C9_invalidation`: with tables 100 and 200 tracked and 200
in the snapshot, column 0 (source table 100) gets its flags cleared. -/
theorem C9_invalidation_witness :
    ((pbABt.cols.getD 0 default).columnDescriptor.srctableid ∈
        pbABt.tableOids ∧
      (pbABt.cols.getD 0 default).columnDescriptor.srctableid ∉
        ([200] : List Int)) ∧
    (InvalidateStatisticsForTables pbABt [200]).cols.getD 0 default =
      clearFinalFlags (pbABt.cols.getD 0 default) :=
  ⟨⟨by decide, by decide⟩,
   (C9_invalidation pbABt [200] 0 (by decide)).2.1 ⟨by decide, by decide⟩⟩

/-! ## Claim C1 (amended) — supporting lemmas -/

theorem sizeT_inj32 {v1 v2 : Int} (h1a : -(2 ^ 31) ≤ v1) (h1b : v1 < 2 ^ 31)
    (h2a : -(2 ^ 31) ≤ v2) (h2b : v2 < 2 ^ 31) (h : sizeT v1 = sizeT v2) :
    v1 = v2 := by
  unfold sizeT at h
  omega

theorem sizeT_live {v : Int} (ha : -(2 ^ 31) ≤ v) (hb : v < 2 ^ 31) :
    isLiveKey (sizeT v) = true := by
  rw [isLiveKey_iff]
  unfold sizeT nilKey remKey
  constructor <;> omega

theorem dedup_map_inj {α β : Type} [DecidableEq α] [DecidableEq β]
    (f : α → β) :
    ∀ l : List α, (∀ x ∈ l, ∀ y ∈ l, f x = f y → x = y) →
      (l.map f).dedup = l.dedup.map f := by
  intro l
  induction l with
  | nil => intro _; simp
  | cons a l ih =>
    intro hinj
    have hrec := ih (fun x hx y hy =>
      hinj x (List.mem_cons_of_mem _ hx) y (List.mem_cons_of_mem _ hy))
    by_cases hmem : a ∈ l
    · have hfa : f a ∈ l.map f := List.mem_map_of_mem f hmem
      rw [List.map_cons, List.dedup_cons_of_mem hfa,
        List.dedup_cons_of_mem hmem, hrec]
    · have hfa : f a ∉ l.map f := by
        intro hcontra
        obtain ⟨b, hb, hfb⟩ := List.mem_map.mp hcontra
        have hba := hinj b (List.mem_cons_of_mem _ hb) a
          (List.mem_cons_self _ _) hfb
        subst hba
        exact hmem hb
      rw [List.map_cons, List.dedup_cons_of_not_mem hfa,
        List.dedup_cons_of_not_mem hmem, hrec, List.map_cons]

/-- Projection of the observer onto one no-shortcut column's
distinct-tracking state: with NULL permanent bounds the address
comparisons never fire, min/max stay non-final, `n_distinct` is untouched,
and `(n_distinctIsFinal, tracker)` moves by `distinctStep`. -/
theorem observeColumn_distinct_proj (bugWord alloc : Nat)
    (c : ColumnStatistic) (h : Hashset) (slot : CPtr × String) (d : ColValue)
    (hmin : c.minValue = none) (hmax : c.maxValue = none)
    (hminF : c.minValueIsFinal = false) (hmaxF : c.maxValueIsFinal = false) :
    (observeColumn bugWord alloc c h slot d).col.minValue = none ∧
    (observeColumn bugWord alloc c h slot d).col.maxValue = none ∧
    (observeColumn bugWord alloc c h slot d).col.minValueIsFinal = false ∧
    (observeColumn bugWord alloc c h slot d).col.maxValueIsFinal = false ∧
    (observeColumn bugWord alloc c h slot d).col.n_distinct = c.n_distinct ∧
    ((observeColumn bugWord alloc c h slot d).col.n_distinctIsFinal,
      (observeColumn bugWord alloc c h slot d).hs) =
      distinctStep bugWord c.n_distinct (c.n_distinctIsFinal, h) d := by
  rw [observeColumn.eq_def]
  rw [if_neg (by simp [hminF])]
  cases d with
  | vnull => simp [distinctStep, hmin, hmax, hminF, hmaxF]
  | vother => simp [distinctStep, hmin, hmax, hminF, hmaxF]
  | vint v =>
    by_cases hv1 : v < c.minValueTemp.val <;>
      by_cases hv2 : v > c.maxValueTemp.val <;>
        by_cases hf : c.n_distinctIsFinal <;>
          by_cases hb : bugWord = sizeT c.n_distinct <;>
            simp [hv1, hv2, hf, hb, hmin, hmax, hminF, hmaxF, iptrEq,
              distinctStep]
  | vnumeric s =>
    by_cases hf : c.n_distinctIsFinal <;>
      by_cases hb : hashset_num_items ((hashset_add_string h s).2) =
          sizeT c.n_distinct <;>
        simp [hf, hb, hmin, hmax, hminF, hmaxF, distinctStep]
  | vstr s =>
    by_cases hf : c.n_distinctIsFinal <;>
      by_cases hb : hashset_num_items ((hashset_add_string h s).2) =
          sizeT c.n_distinct <;>
        simp [hf, hb, hmin, hmax, hminF, hmaxF, distinctStep]

/-- The observer loop preserves the lengths of the parallel arrays. -/
theorem statsCols_lengths (bugWord : Nat) :
    ∀ (cs : List ColumnStatistic) (hs : List Hashset)
      (ss : List (CPtr × String)) (ds : List ColValue) (alloc : Nat),
      (statsCols bugWord alloc cs hs ss ds).2.1.length = cs.length ∧
      (statsCols bugWord alloc cs hs ss ds).2.2.1.length = hs.length ∧
      (statsCols bugWord alloc cs hs ss ds).2.2.2.length = ss.length := by
  intro cs
  induction cs with
  | nil => intro hs ss ds alloc; cases hs <;> cases ss <;> cases ds <;>
      simp [statsCols]
  | cons c cs ih =>
    intro hs ss ds alloc
    cases hs with
    | nil => simp [statsCols]
    | cons h hs =>
      cases ss with
      | nil => simp [statsCols]
      | cons s ss =>
        cases ds with
        | nil => simp [statsCols]
        | cons d ds =>
          have := ih hs ss ds
            (observeColumn bugWord alloc c h s d).alloc
          simp only [statsCols, List.length_cons]
          exact ⟨by rw [this.1], by rw [this.2.1], by rw [this.2.2]⟩

/-- The observer loop treats column `i` by one `observeColumn` call on the
`i`-th entries (for some allocation counter value). -/
theorem statsCols_getD (bugWord : Nat) :
    ∀ (cs : List ColumnStatistic) (hs : List Hashset)
      (ss : List (CPtr × String)) (ds : List ColValue) (alloc i : Nat),
      cs.length = hs.length → cs.length = ss.length → cs.length = ds.length →
      i < cs.length →
      ∃ a, ((statsCols bugWord alloc cs hs ss ds).2.1.getD i default,
            (statsCols bugWord alloc cs hs ss ds).2.2.1.getD i
              hashset_create) =
        ((observeColumn bugWord a (cs.getD i default)
            (hs.getD i hashset_create) (ss.getD i default)
            (ds.getD i default)).col,
         (observeColumn bugWord a (cs.getD i default)
            (hs.getD i hashset_create) (ss.getD i default)
            (ds.getD i default)).hs) := by
  intro cs
  induction cs with
  | nil => intro hs ss ds alloc i _ _ _ hi; simp at hi
  | cons c cs ih =>
    intro hs ss ds alloc i h1 h2 h3 hi
    cases hs with
    | nil => simp at h1
    | cons h hs =>
      cases ss with
      | nil => simp at h2
      | cons s ss =>
        cases ds with
        | nil => simp at h3
        | cons d ds =>
          cases i with
          | zero =>
            exact ⟨alloc, by simp [statsCols]⟩
          | succ n =>
            have hn : n < cs.length := by simpa using hi
            obtain ⟨a, ha⟩ := ih hs ss ds
              (observeColumn bugWord alloc c h s d).alloc n
              (by simpa using h1) (by simpa using h2) (by simpa using h3) hn
            exact ⟨a, by simpa [statsCols] using ha⟩

/-- A `Pb`-fold whose step only rewrites the FD maps and the pruning flag
leaves all other components unchanged. -/
theorem pbFoldl_frame {α : Type} (g : Pb → α → Pb)
    (H : ∀ pb x, (g pb x).cols = pb.cols ∧
      (g pb x).distinctValues = pb.distinctValues ∧
      (g pb x).slotValues = pb.slotValues ∧
      (g pb x).numberOfAttributes = pb.numberOfAttributes ∧
      (g pb x).numberOfTuples = pb.numberOfTuples ∧
      (g pb x).nextAlloc = pb.nextAlloc ∧
      (g pb x).bugWord = pb.bugWord) :
    ∀ (l : List α) (pb : Pb),
      (l.foldl g pb).cols = pb.cols ∧
      (l.foldl g pb).distinctValues = pb.distinctValues ∧
      (l.foldl g pb).slotValues = pb.slotValues ∧
      (l.foldl g pb).numberOfAttributes = pb.numberOfAttributes ∧
      (l.foldl g pb).numberOfTuples = pb.numberOfTuples ∧
      (l.foldl g pb).nextAlloc = pb.nextAlloc ∧
      (l.foldl g pb).bugWord = pb.bugWord := by
  intro l
  induction l with
  | nil => intro pb; exact ⟨rfl, rfl, rfl, rfl, rfl, rfl, rfl⟩
  | cons x l ih =>
    intro pb
    rw [List.foldl_cons]
    have h1 := ih (g pb x)
    have h2 := H pb x
    exact ⟨h1.1.trans h2.1, h1.2.1.trans h2.2.1, h1.2.2.1.trans h2.2.2.1,
      h1.2.2.2.1.trans h2.2.2.2.1, h1.2.2.2.2.1.trans h2.2.2.2.2.1,
      h1.2.2.2.2.2.1.trans h2.2.2.2.2.2.1, h1.2.2.2.2.2.2.trans h2.2.2.2.2.2.2⟩

theorem pruneStep_frame (pbj : Pb) (i j : Nat) :
    (pruneStep pbj i j).cols = pbj.cols ∧
    (pruneStep pbj i j).distinctValues = pbj.distinctValues ∧
    (pruneStep pbj i j).slotValues = pbj.slotValues ∧
    (pruneStep pbj i j).numberOfAttributes = pbj.numberOfAttributes ∧
    (pruneStep pbj i j).numberOfTuples = pbj.numberOfTuples ∧
    (pruneStep pbj i j).nextAlloc = pbj.nextAlloc ∧
    (pruneStep pbj i j).bugWord = pbj.bugWord := by
  simp only [pruneStep]
  split
  · exact ⟨rfl, rfl, rfl, rfl, rfl, rfl, rfl⟩
  · split
    · split
      · exact ⟨rfl, rfl, rfl, rfl, rfl, rfl, rfl⟩
      · exact ⟨rfl, rfl, rfl, rfl, rfl, rfl, rfl⟩
    · exact ⟨rfl, rfl, rfl, rfl, rfl, rfl, rfl⟩

theorem prune_frame (pb : Pb) :
    (prune pb).cols = pb.cols ∧
    (prune pb).distinctValues = pb.distinctValues ∧
    (prune pb).slotValues = pb.slotValues ∧
    (prune pb).numberOfAttributes = pb.numberOfAttributes ∧
    (prune pb).numberOfTuples = pb.numberOfTuples ∧
    (prune pb).nextAlloc = pb.nextAlloc ∧
    (prune pb).bugWord = pb.bugWord := by
  rw [prune]
  exact pbFoldl_frame _
    (fun pbi i => pbFoldl_frame _
      (fun pbj j => pruneStep_frame pbj i j) _ pbi)
    _ pb

theorem fdPairStep_frame (pbj : Pb) (i j : Nat) :
    (fdPairStep pbj i j).cols = pbj.cols ∧
    (fdPairStep pbj i j).distinctValues = pbj.distinctValues ∧
    (fdPairStep pbj i j).slotValues = pbj.slotValues ∧
    (fdPairStep pbj i j).numberOfAttributes = pbj.numberOfAttributes ∧
    (fdPairStep pbj i j).numberOfTuples = pbj.numberOfTuples ∧
    (fdPairStep pbj i j).nextAlloc = pbj.nextAlloc ∧
    (fdPairStep pbj i j).bugWord = pbj.bugWord := by
  simp only [fdPairStep]
  split
  · exact ⟨rfl, rfl, rfl, rfl, rfl, rfl, rfl⟩
  · split
    · exact ⟨rfl, rfl, rfl, rfl, rfl, rfl, rfl⟩
    · split
      · exact ⟨rfl, rfl, rfl, rfl, rfl, rfl, rfl⟩
      · split
        · exact ⟨rfl, rfl, rfl, rfl, rfl, rfl, rfl⟩
        · exact ⟨rfl, rfl, rfl, rfl, rfl, rfl, rfl⟩

theorem fillFD_frame (pb0 : Pb) :
    (fillFDCandidateMaps pb0).cols = pb0.cols ∧
    (fillFDCandidateMaps pb0).distinctValues = pb0.distinctValues ∧
    (fillFDCandidateMaps pb0).slotValues = pb0.slotValues ∧
    (fillFDCandidateMaps pb0).numberOfAttributes = pb0.numberOfAttributes ∧
    (fillFDCandidateMaps pb0).numberOfTuples = pb0.numberOfTuples ∧
    (fillFDCandidateMaps pb0).nextAlloc = pb0.nextAlloc ∧
    (fillFDCandidateMaps pb0).bugWord = pb0.bugWord := by
  have key : ∀ pb1 : Pb,
      (((List.range pb1.numberOfAttributes).foldl
        (fun pbi i => (List.range pbi.numberOfAttributes).foldl
          (fun pbj j => fdPairStep pbj i j) pbi) pb1)).cols = pb1.cols ∧
      (((List.range pb1.numberOfAttributes).foldl
        (fun pbi i => (List.range pbi.numberOfAttributes).foldl
          (fun pbj j => fdPairStep pbj i j) pbi) pb1)).distinctValues =
        pb1.distinctValues ∧
      (((List.range pb1.numberOfAttributes).foldl
        (fun pbi i => (List.range pbi.numberOfAttributes).foldl
          (fun pbj j => fdPairStep pbj i j) pbi) pb1)).slotValues =
        pb1.slotValues ∧
      (((List.range pb1.numberOfAttributes).foldl
        (fun pbi i => (List.range pbi.numberOfAttributes).foldl
          (fun pbj j => fdPairStep pbj i j) pbi) pb1)).numberOfAttributes =
        pb1.numberOfAttributes ∧
      (((List.range pb1.numberOfAttributes).foldl
        (fun pbi i => (List.range pbi.numberOfAttributes).foldl
          (fun pbj j => fdPairStep pbj i j) pbi) pb1)).numberOfTuples =
        pb1.numberOfTuples ∧
      (((List.range pb1.numberOfAttributes).foldl
        (fun pbi i => (List.range pbi.numberOfAttributes).foldl
          (fun pbj j => fdPairStep pbj i j) pbi) pb1)).nextAlloc =
        pb1.nextAlloc ∧
      (((List.range pb1.numberOfAttributes).foldl
        (fun pbi i => (List.range pbi.numberOfAttributes).foldl
          (fun pbj j => fdPairStep pbj i j) pbi) pb1)).bugWord =
        pb1.bugWord := fun pb1 =>
    pbFoldl_frame _
      (fun pbi i => pbFoldl_frame _
        (fun pbj j => fdPairStep_frame pbj i j) _ pbi)
      _ pb1
  simp only [fillFDCandidateMaps]
  by_cases h : pb0.fdsPruned
  · rw [if_neg (not_not_intro h)]
    exact key pb0
  · rw [if_pos h]
    have hk := key { prune pb0 with fdsPruned := true }
    have hp := prune_frame pb0
    exact ⟨hk.1.trans hp.1, hk.2.1.trans hp.2.1, hk.2.2.1.trans hp.2.2.1,
      hk.2.2.2.1.trans hp.2.2.2.1, hk.2.2.2.2.1.trans hp.2.2.2.2.1,
      hk.2.2.2.2.2.1.trans hp.2.2.2.2.2.1,
      hk.2.2.2.2.2.2.trans hp.2.2.2.2.2.2⟩

theorem fillFD_cols (pb : Pb) : (fillFDCandidateMaps pb).cols = pb.cols :=
  (fillFD_frame pb).1

theorem fillFD_distinctValues (pb : Pb) :
    (fillFDCandidateMaps pb).distinctValues = pb.distinctValues :=
  (fillFD_frame pb).2.1

theorem fillFD_slotValues (pb : Pb) :
    (fillFDCandidateMaps pb).slotValues = pb.slotValues :=
  (fillFD_frame pb).2.2.1

theorem fillFD_numberOfAttributes (pb : Pb) :
    (fillFDCandidateMaps pb).numberOfAttributes = pb.numberOfAttributes :=
  (fillFD_frame pb).2.2.2.1

theorem fillFD_numberOfTuples (pb : Pb) :
    (fillFDCandidateMaps pb).numberOfTuples = pb.numberOfTuples :=
  (fillFD_frame pb).2.2.2.2.1

theorem fillFD_bugWord (pb : Pb) :
    (fillFDCandidateMaps pb).bugWord = pb.bugWord :=
  (fillFD_frame pb).2.2.2.2.2.2

theorem processRow_tuples (pb : Pb) (row : List ColValue) :
    (processRow pb row).numberOfTuples = pb.numberOfTuples + 1 := by
  simp only [processRow, fillFD_numberOfTuples]

theorem runRows_tuples :
    ∀ (rows : List (List ColValue)) (pb : Pb),
      (runRows pb rows).numberOfTuples =
        pb.numberOfTuples + (rows.length : Int) := by
  intro rows
  induction rows with
  | nil => intro pb; simp [runRows]
  | cons r rows ih =>
    intro pb
    have h1 : runRows pb (r :: rows) = runRows (processRow pb r) rows := rfl
    rw [h1, ih (processRow pb r), processRow_tuples, List.length_cons]
    push_cast
    ring

theorem getD_replicate_self {α : Type} (a : α) :
    ∀ (n i : Nat), (List.replicate n a).getD i a = a
  | 0, _ => by simp [List.getD]
  | _ + 1, 0 => rfl
  | n + 1, i + 1 => by
    simp only [List.replicate_succ, List.getD_cons_succ]
    exact getD_replicate_self a n i

/-- One `processRow` step preserves well-formedness, the column count,
`bugWord`, a column's untouched-bounds configuration and its
`n_distinct`, and acts on the column's distinct-tracking state exactly as
`distinctStep` on the row's value for that column. -/
theorem processRow_proj (pb : Pb) (row : List ColValue) (i : Nat)
    (hwf : WFpb pb) (hrow : row.length = pb.numberOfAttributes)
    (hi : i < pb.numberOfAttributes)
    (hmin : (pb.cols.getD i default).minValue = none)
    (hmax : (pb.cols.getD i default).maxValue = none)
    (hminF : (pb.cols.getD i default).minValueIsFinal = false)
    (hmaxF : (pb.cols.getD i default).maxValueIsFinal = false) :
    WFpb (processRow pb row) ∧
    (processRow pb row).numberOfAttributes = pb.numberOfAttributes ∧
    (processRow pb row).bugWord = pb.bugWord ∧
    ((processRow pb row).cols.getD i default).minValue = none ∧
    ((processRow pb row).cols.getD i default).maxValue = none ∧
    ((processRow pb row).cols.getD i default).minValueIsFinal = false ∧
    ((processRow pb row).cols.getD i default).maxValueIsFinal = false ∧
    ((processRow pb row).cols.getD i default).n_distinct =
      (pb.cols.getD i default).n_distinct ∧
    (((processRow pb row).cols.getD i default).n_distinctIsFinal,
      (processRow pb row).distinctValues.getD i hashset_create) =
      distinctStep pb.bugWord (pb.cols.getD i default).n_distinct
        ((pb.cols.getD i default).n_distinctIsFinal,
          pb.distinctValues.getD i hashset_create)
        (row.getD i default) := by
  obtain ⟨hc, hd, hs⟩ := hwf
  have h1 : pb.cols.length = pb.distinctValues.length := by rw [hc, hd]
  have h2 : pb.cols.length = pb.slotValues.length := by rw [hc, hs]
  have h3 : pb.cols.length = row.length := by rw [hc, hrow]
  have hi' : i < pb.cols.length := by rw [hc]; exact hi
  obtain ⟨a, hpair⟩ := statsCols_getD pb.bugWord pb.cols pb.distinctValues
    pb.slotValues row pb.nextAlloc i h1 h2 h3 hi'
  injection hpair with hcolEq hhsEq
  have hobs := observeColumn_distinct_proj pb.bugWord a
    (pb.cols.getD i default) (pb.distinctValues.getD i hashset_create)
    (pb.slotValues.getD i default) (row.getD i default) hmin hmax hminF hmaxF
  have hlen := statsCols_lengths pb.bugWord pb.cols pb.distinctValues
    pb.slotValues row pb.nextAlloc
  simp only [processRow, fillFD_cols, fillFD_distinctValues,
    fillFD_slotValues, fillFD_numberOfAttributes, fillFD_bugWord, WFpb]
  refine ⟨⟨hlen.1.trans hc, hlen.2.1.trans hd, hlen.2.2.trans hs⟩,
    by trivial, by trivial, ?_, ?_, ?_, ?_, ?_, ?_⟩
  · rw [hcolEq]; exact hobs.1
  · rw [hcolEq]; exact hobs.2.1
  · rw [hcolEq]; exact hobs.2.2.1
  · rw [hcolEq]; exact hobs.2.2.2.1
  · rw [hcolEq]; exact hobs.2.2.2.2.1
  · rw [hcolEq, hhsEq]; exact hobs.2.2.2.2.2

/-- Over a whole run, a column whose permanent bounds stay NULL evolves
its distinct-tracking state as the `distinctStep` fold over the column's
realized values. -/
theorem runRows_proj (i : Nat) :
    ∀ (rows : List (List ColValue)) (pb : Pb),
      WFpb pb → (∀ r ∈ rows, r.length = pb.numberOfAttributes) →
      i < pb.numberOfAttributes →
      (pb.cols.getD i default).minValue = none →
      (pb.cols.getD i default).maxValue = none →
      (pb.cols.getD i default).minValueIsFinal = false →
      (pb.cols.getD i default).maxValueIsFinal = false →
      WFpb (runRows pb rows) ∧
      (runRows pb rows).numberOfAttributes = pb.numberOfAttributes ∧
      (runRows pb rows).bugWord = pb.bugWord ∧
      ((runRows pb rows).cols.getD i default).minValue = none ∧
      ((runRows pb rows).cols.getD i default).maxValue = none ∧
      ((runRows pb rows).cols.getD i default).minValueIsFinal = false ∧
      ((runRows pb rows).cols.getD i default).maxValueIsFinal = false ∧
      ((runRows pb rows).cols.getD i default).n_distinct =
        (pb.cols.getD i default).n_distinct ∧
      (((runRows pb rows).cols.getD i default).n_distinctIsFinal,
        (runRows pb rows).distinctValues.getD i hashset_create) =
        (rows.map (fun r => r.getD i default)).foldl
          (distinctStep pb.bugWord (pb.cols.getD i default).n_distinct)
          ((pb.cols.getD i default).n_distinctIsFinal,
            pb.distinctValues.getD i hashset_create) := by
  intro rows
  induction rows with
  | nil =>
    intro pb hwf _ _ hmin hmax hminF hmaxF
    exact ⟨hwf, rfl, rfl, hmin, hmax, hminF, hmaxF, rfl, rfl⟩
  | cons r rows ih =>
    intro pb hwf hlens hi hmin hmax hminF hmaxF
    obtain ⟨hwf1, hA, hB, h4, h5, h6, h7, h8, h9⟩ :=
      processRow_proj pb r i hwf (hlens r (List.mem_cons_self r rows)) hi
        hmin hmax hminF hmaxF
    have hlens1 : ∀ r' ∈ rows, r'.length = (processRow pb r).numberOfAttributes := by
      intro r' hr'
      rw [hA]
      exact hlens r' (List.mem_cons_of_mem r hr')
    have hi1 : i < (processRow pb r).numberOfAttributes := by
      rw [hA]; exact hi
    obtain ⟨hwf2, hA2, hB2, g4, g5, g6, g7, g8, g9⟩ :=
      ih (processRow pb r) hwf1 hlens1 hi1 h4 h5 h6 h7
    have hrun : runRows pb (r :: rows) = runRows (processRow pb r) rows := rfl
    rw [hrun]
    rw [hB, h8] at g9
    refine ⟨hwf2, hA2.trans hA, hB2.trans hB, g4, g5, g6, g7,
      g8.trans h8, ?_⟩
    rw [List.map_cons, List.foldl_cons, ← h9]
    exact g9

/-- `distinctStep` is the identity once the finality flag is set. -/
theorem distinctStep_true (bw : Nat) (nd : Int) (h : Hashset)
    (d : ColValue) : distinctStep bw nd (true, h) d = (true, h) := by
  cases d <;> simp [distinctStep]

theorem distinctStep_foldl_true (bw : Nat) (nd : Int) :
    ∀ (ds : List ColValue) (h : Hashset),
      ds.foldl (distinctStep bw nd) (true, h) = (true, h) := by
  intro ds
  induction ds with
  | nil => intro h; rfl
  | cons d ds ih =>
    intro h
    rw [List.foldl_cons, distinctStep_true]
    exact ih h

/-- When the finality flag never fires over a value stream, the tracker
ends up as the plain insert-fold of the stream's keys. -/
theorem distinctStep_foldl_false (bw : Nat) (nd : Int) :
    ∀ (ds : List ColValue) (h : Hashset),
      (ds.foldl (distinctStep bw nd) (false, h)).1 = false →
      (ds.foldl (distinctStep bw nd) (false, h)).2 =
        (ds.filterMap valueKey).foldl
          (fun s k => (hashset_add s k).2) h := by
  intro ds
  induction ds with
  | nil => intro h _; rfl
  | cons d ds ih =>
    intro h hfin
    rw [List.foldl_cons] at hfin ⊢
    cases d with
    | vnull =>
      rw [show distinctStep bw nd (false, h) ColValue.vnull = (false, h)
        from rfl] at hfin ⊢
      rw [show (ColValue.vnull :: ds).filterMap valueKey =
        ds.filterMap valueKey from by simp [List.filterMap_cons, valueKey]]
      exact ih h hfin
    | vother =>
      rw [show distinctStep bw nd (false, h) ColValue.vother = (false, h)
        from rfl] at hfin ⊢
      rw [show (ColValue.vother :: ds).filterMap valueKey =
        ds.filterMap valueKey from by simp [List.filterMap_cons, valueKey]]
      exact ih h hfin
    | vint v =>
      by_cases hb : bw = sizeT nd
      · exfalso
        rw [show distinctStep bw nd (false, h) (ColValue.vint v) =
          (true, (hashset_add_integer h v).2) from by
            simp [distinctStep, hb]] at hfin
        rw [distinctStep_foldl_true] at hfin
        simp at hfin
      · rw [show distinctStep bw nd (false, h) (ColValue.vint v) =
          (false, (hashset_add_integer h v).2) from by
            simp [distinctStep, hb]] at hfin ⊢
        rw [show (ColValue.vint v :: ds).filterMap valueKey =
          sizeT v :: ds.filterMap valueKey from by
            simp [List.filterMap_cons, valueKey]]
        rw [List.foldl_cons]
        exact ih _ hfin
    | vnumeric t =>
      by_cases hb : hashset_num_items (hashset_add_string h t).2 = sizeT nd
      · exfalso
        rw [show distinctStep bw nd (false, h) (ColValue.vnumeric t) =
          (true, (hashset_add_string h t).2) from by
            simp [distinctStep, hb]] at hfin
        rw [distinctStep_foldl_true] at hfin
        simp at hfin
      · rw [show distinctStep bw nd (false, h) (ColValue.vnumeric t) =
          (false, (hashset_add_string h t).2) from by
            simp [distinctStep, hb]] at hfin ⊢
        rw [show (ColValue.vnumeric t :: ds).filterMap valueKey =
          hashStr t :: ds.filterMap valueKey from by
            simp [List.filterMap_cons, valueKey]]
        rw [List.foldl_cons]
        exact ih _ hfin
    | vstr t =>
      by_cases hb : hashset_num_items (hashset_add_string h t).2 = sizeT nd
      · exfalso
        rw [show distinctStep bw nd (false, h) (ColValue.vstr t) =
          (true, (hashset_add_string h t).2) from by
            simp [distinctStep, hb]] at hfin
        rw [distinctStep_foldl_true] at hfin
        simp at hfin
      · rw [show distinctStep bw nd (false, h) (ColValue.vstr t) =
          (false, (hashset_add_string h t).2) from by
            simp [distinctStep, hb]] at hfin ⊢
        rw [show (ColValue.vstr t :: ds).filterMap valueKey =
          hashStr t :: ds.filterMap valueKey from by
            simp [List.filterMap_cons, valueKey]]
        rw [List.foldl_cons]
        exact ih _ hfin

/-- Over an all-integer value stream the tracker keys are exactly the
mapped `sizeT` images of the values. -/
theorem filterMap_valueKey_int :
    ∀ l : List ColValue, (∀ v ∈ l, ∃ n : Int, v = ColValue.vint n) →
      l.filterMap valueKey = l.map (fun v => (valueKey v).getD 0) := by
  intro l
  induction l with
  | nil => intro _; rfl
  | cons a l ih =>
    intro hall
    obtain ⟨n, hn⟩ := hall a (List.mem_cons_self a l)
    subst hn
    have h1 : (ColValue.vint n :: l).filterMap valueKey =
        sizeT n :: l.filterMap valueKey := by
      simp [List.filterMap_cons, valueKey]
    rw [h1, List.map_cons, ih (fun v hv => hall v (List.mem_cons_of_mem _ hv))]
    rfl

/-- For a stream of 32-bit integer values, counting distinct live tracker
keys is the same as counting distinct values (`sizeT` is injective there
and never hits a sentinel). -/
theorem intKeys_dedup_length (l : List ColValue)
    (hall : ∀ v ∈ l, ∃ n : Int, v = ColValue.vint n ∧
      -(2 ^ 31) ≤ n ∧ n < 2 ^ 31) :
    (((l.filterMap valueKey).filter isLiveKey).dedup).length =
      l.dedup.length := by
  rw [filterMap_valueKey_int l (fun v hv => (hall v hv).imp
    (fun n hn => hn.1))]
  have hfil : (l.map (fun v => (valueKey v).getD 0)).filter isLiveKey =
      l.map (fun v => (valueKey v).getD 0) := by
    rw [List.filter_eq_self]
    intro a ha
    obtain ⟨v, hv, rfl⟩ := List.mem_map.mp ha
    obtain ⟨n, hn, hn1, hn2⟩ := hall v hv
    subst hn
    simpa [valueKey] using sizeT_live hn1 hn2
  rw [hfil]
  have hinj : ∀ x ∈ l, ∀ y ∈ l,
      (valueKey x).getD 0 = (valueKey y).getD 0 → x = y := by
    intro x hx y hy hxy
    obtain ⟨nx, hnx, hx1, hx2⟩ := hall x hx
    obtain ⟨ny, hny, hy1, hy2⟩ := hall y hy
    subst hnx
    subst hny
    simp only [valueKey, Option.getD_some] at hxy
    exact congrArg ColValue.vint (sizeT_inj32 hx1 hx2 hy1 hy2 hxy)
  rw [dedup_map_inj _ l hinj, List.length_map]

/-- Claim C1 (amended): for a run from a fresh context, a column whose
distinct-count finality flag is still clear at the end is reported with a
distinct count equal to the number of distinct non-sentinel 64-bit
tracker keys of its realized values — the `sizeT` image for integers,
the djb2 hash of the string form for character/decimal values, nothing
for NULLs and unrecognized types.  For all-integer columns (32-bit
range) that count is exactly the number of distinct values; for string
forms it can undercount on hash collisions
(`C1_distinct_collision_counterexample`). -/
theorem C1_amended_distinct_counts
    (descs : List AttDesc) (minI maxI : Int) (bw : Nat)
    (rows : List (List ColValue)) (i : Nat)
    (hne : rows ≠ [])
    (hw : ∀ r ∈ rows, r.length = descs.length)
    (hi : i < descs.length)
    (hfin : (((runRows (initPb descs minI maxI bw) rows).cols.getD i
      default).n_distinctIsFinal) = false) :
    ((printSingleColumnStatistics (runRows (initPb descs minI maxI bw)
        rows)).1.getD i default).distinctCount =
      (((((rows.map (fun r => r.getD i default)).filterMap
          valueKey).filter isLiveKey).dedup).length : Int) ∧
    ((∀ v ∈ rows.map (fun r => r.getD i default),
        ∃ n : Int, v = ColValue.vint n ∧ -(2 ^ 31) ≤ n ∧ n < 2 ^ 31) →
      ((((rows.map (fun r => r.getD i default)).filterMap
          valueKey).filter isLiveKey).dedup).length =
        ((rows.map (fun r => r.getD i default)).dedup).length) := by
  refine ⟨?_, fun hall => intKeys_dedup_length _ hall⟩
  have hcol : (initPb descs minI maxI bw).cols.getD i default =
      { columnDescriptor := descs.getD i default
        isNumeric := 0
        n_distinct := 0
        n_distinctIsFinal := false
        minValue := none
        minValueTemp := ⟨2 * i, minI⟩
        minValueIsFinal := false
        maxValue := none
        maxValueTemp := ⟨2 * i + 1, maxI⟩
        maxValueIsFinal := false
        mostFrequentValue := none
        mostFrequentValueIsFinal := false } := by
    show ((List.range descs.length).map _).getD i default = _
    rw [getD_map _ (by simpa using hi) 0 default]
    rw [show (List.range descs.length).getD i 0 = i from by
      rw [List.getD_eq_getElem?_getD, List.getElem?_range hi]; rfl]
  have hds : (initPb descs minI maxI bw).distinctValues.getD i
      hashset_create = hashset_create :=
    getD_replicate_self hashset_create descs.length i
  have hwf0 : WFpb (initPb descs minI maxI bw) := by
    refine ⟨?_, ?_, ?_⟩ <;> simp [initPb, WFpb]
  obtain ⟨hwfR, hA, hB, k4, k5, k6, k7, k8, k9⟩ :=
    runRows_proj i rows (initPb descs minI maxI bw) hwf0 hw hi
      (by rw [hcol]) (by rw [hcol]) (by rw [hcol]) (by rw [hcol])
  simp only [hcol, hds] at k9
  have hfold1 : ((rows.map (fun r => r.getD i default)).foldl
      (distinctStep (initPb descs minI maxI bw).bugWord 0)
      (false, hashset_create)).1 = false :=
    (congrArg Prod.fst k9).symm.trans hfin
  have htrack : (runRows (initPb descs minI maxI bw)
      rows).distinctValues.getD i hashset_create =
      ((rows.map (fun r => r.getD i default)).foldl
        (distinctStep (initPb descs minI maxI bw).bugWord 0)
        (false, hashset_create)).2 := congrArg Prod.snd k9
  have hnit : hashset_num_items ((runRows (initPb descs minI maxI bw)
      rows).distinctValues.getD i hashset_create) =
      ((((rows.map (fun r => r.getD i default)).filterMap
        valueKey).filter isLiveKey).dedup).length := by
    rw [htrack, distinctStep_foldl_false _ _ _ _ hfold1]
    exact insertKeys_nitems ((rows.map (fun r => r.getD i default)).filterMap
      valueKey)
  have hpos : ¬ (runRows (initPb descs minI maxI bw)
      rows).numberOfTuples ≤ 0 := by
    rw [runRows_tuples]
    have h0 : (initPb descs minI maxI bw).numberOfTuples = 0 := rfl
    have hlp : 0 < rows.length := List.length_pos.mpr hne
    rw [h0]
    omega
  simp only [printSingleColumnStatistics]
  rw [if_neg hpos]
  have hAlen : i < (List.range ((runRows (initPb descs minI maxI bw)
      rows).numberOfAttributes)).length := by
    rw [List.length_range, hA]
    exact hi
  rw [getD_map _ hAlen 0 default]
  rw [show (List.range ((runRows (initPb descs minI maxI bw)
      rows).numberOfAttributes)).getD i 0 = i from by
    rw [List.getD_eq_getElem?_getD,
      List.getElem?_range (by rw [hA]; exact hi)]; rfl]
  simp only [resolveDistinctCount]
  rw [if_pos hfin, hnit]

/-- Witness for `C1_amended_distinct_counts`: a one-column integer run
with values 1, 1, 2 and no shortcut reports distinct count 2. -/
theorem C1_amended_distinct_counts_witness :
    ((printSingleColumnStatistics (runRows (initPb [descA] INT_MAX INT_MIN
        1) c1Rows)).1.getD 0 default).distinctCount = 2 ∧
    (((runRows (initPb [descA] INT_MAX INT_MIN 1) c1Rows).cols.getD 0
        default).n_distinctIsFinal) = false := by
  constructor
  · exact (C1_amended_distinct_counts [descA] INT_MAX INT_MIN 1 c1Rows 0
      (by decide) (by decide) (by decide) (by decide)).1.trans (by decide)
  · decide

end Piggyback
